import Mathlib

/-!
Verification of the gretl online checkpointing engine.

This file gives a shallow embedding of the three source files

  - src/gretl/online_r2_checkpoint_strategy.hpp / .cpp
    (class OnlineR2CheckpointStrategy)
  - src/gretl/checkpoint.hpp
    (function template advance_and_reverse_steps)

and proves/refutes the frozen claims about them.

Machine-integer conventions: a C++ size_t value is modelled as a Nat
together with mod 2^64 arithmetic at every operation of the source that
can wrap (the increment of maxNumSlots_, the metric counters, and the
subtraction rightStep - leftStep inside find_eviction_candidate).
Comparisons on size_t values coincide with Nat comparisons.
Plain assert(...) calls from cassert are no-ops in release builds and are
modelled as no-ops; properties are proved only for states that satisfy
the corresponding preconditions.
-/

namespace gretl

/-- 2^64, the modulus of size_t arithmetic. -/
def size_t_mod : Nat := 2 ^ 64

/-- size_t subtraction a - b with wrap-around, as computed by C++ for
operands below 2^64. -/
def sub64 (a b : Nat) : Nat := (a + (size_t_mod - b % size_t_mod)) % size_t_mod

/-- Slot from online_r2_checkpoint_strategy.hpp: step index plus persistent
flag. -/
structure Slot where
  step : Nat
  persistent : Bool
deriving DecidableEq

/-- Modelled from the spec: CheckpointMetrics is declared in
checkpoint_strategy.hpp, which is not among the provided sources; spec
section 2 fixes it as a plain record of stores, evictions and
recomputations counts. -/
structure CheckpointMetrics where
  stores : Nat
  evictions : Nat
  recomputations : Nat
deriving DecidableEq

/-- Modelled from the spec: CheckpointStrategy::invalidCheckpointIndex lives
in the missing checkpoint_strategy.hpp; spec section 6 fixes the sentinel
as the maximum value of the step type (size_t). -/
def invalidCheckpointIndex : Nat := size_t_mod - 1

/-- Modelled from the spec: valid_checkpoint_index(i) tests that i is not
the invalid sentinel (spec section 4.1). -/
def valid_checkpoint_index (i : Nat) : Bool := decide (i ≠ invalidCheckpointIndex)

/-- State of OnlineR2CheckpointStrategy: maxNumSlots_, slots_ and
metrics_. -/
structure OnlineR2CheckpointStrategy where
  maxNumSlots : Nat
  slots : List Slot
  metrics : CheckpointMetrics
deriving DecidableEq

/-- Constructor OnlineR2CheckpointStrategy(size_t maxStates): empty slot
vector, zeroed metrics. -/
def mkOnlineR2 (maxStates : Nat) : OnlineR2CheckpointStrategy :=
  { maxNumSlots := maxStates, slots := [], metrics := ⟨0, 0, 0⟩ }

/-- The merged gap rightStep - leftStep computed for index i inside
find_eviction_candidate (size_t subtraction). -/
def mergedGap (slots : List Slot) (newStep : Nat) (i : Nat) : Nat :=
  let leftStep := if i = 0 then 0 else (slots.getD (i - 1) ⟨0, false⟩).step
  let rightStep := if i + 1 < slots.length then (slots.getD (i + 1) ⟨0, false⟩).step else newStep
  sub64 rightStep leftStep

/-- One iteration of the find_eviction_candidate scan at index i: skip a
persistent slot, otherwise update (bestIdx, bestMergedGap) when the merged
gap is strictly smaller. -/
def fecStep (slots : List Slot) (newStep : Nat) (best : Nat × Nat) (i : Nat) : Nat × Nat :=
  if (slots.getD i ⟨0, false⟩).persistent then best
  else if mergedGap slots newStep i < best.2 then (i, mergedGap slots newStep i) else best

/-- The scanning loop of find_eviction_candidate: fold fecStep over the
indices, starting from bestIdx = slots_.size() and bestMergedGap =
numeric_limits of size_t = 2^64 - 1. Returns (bestIdx, bestMergedGap). -/
def fecFold (slots : List Slot) (newStep : Nat) : Nat × Nat :=
  (List.range slots.length).foldl (fecStep slots newStep) (slots.length, size_t_mod - 1)

/-- OnlineR2CheckpointStrategy::find_eviction_candidate. -/
def find_eviction_candidate (slots : List Slot) (newStep : Nat) : Nat :=
  (fecFold slots newStep).1

/-- std::lower_bound with comparator (s.step < st) followed by insert:
place the new slot before the first slot whose step is ≥ the new step. -/
def insertSorted : List Slot → Slot → List Slot
  | [], n => [n]
  | s :: rest, n => if s.step < n.step then s :: insertSorted rest n else n :: s :: rest

/-- OnlineR2CheckpointStrategy::add_checkpoint_and_get_index_to_remove.
Returns the new state and nextEraseStep. The debug-only
assert(slots_.size() < maxNumSlots_) is a release no-op. -/
def add_checkpoint_and_get_index_to_remove (st : OnlineR2CheckpointStrategy)
    (step : Nat) (persistent : Bool) : OnlineR2CheckpointStrategy × Nat :=
  let st0 := if persistent then
    { st with maxNumSlots := (st.maxNumSlots + 1) % size_t_mod } else st
  let pair : List Slot × Nat :=
    if st0.slots.length < st0.maxNumSlots then
      (insertSorted st0.slots ⟨step, persistent⟩, invalidCheckpointIndex)
    else
      let evictIdx := find_eviction_candidate st0.slots step
      if h : evictIdx < st0.slots.length then
        (insertSorted (st0.slots.eraseIdx evictIdx) ⟨step, persistent⟩,
          (st0.slots.get ⟨evictIdx, h⟩).step)
      else
        (st0.slots, invalidCheckpointIndex)
  let m := st0.metrics
  ({ maxNumSlots := st0.maxNumSlots, slots := pair.1,
     metrics :=
       { stores := (m.stores + 1) % size_t_mod,
         evictions := if valid_checkpoint_index pair.2 then
             (m.evictions + 1) % size_t_mod else m.evictions,
         recomputations := m.recomputations } },
   pair.2)

/-- OnlineR2CheckpointStrategy::last_checkpoint_step, i.e.
slots_.back().step. The source asserts non-emptiness; on the empty vector
the C++ behaviour is undefined and the model returns the step of a dummy
slot. All claims use it on non-empty states only. -/
def last_checkpoint_step (st : OnlineR2CheckpointStrategy) : Nat :=
  (st.slots.getLastD ⟨0, false⟩).step

/-- The scan of OnlineR2CheckpointStrategy::erase_step over the slot
vector: erase and return true at the first non-persistent slot matching
the step; a persistent match is skipped and the scan continues. -/
def eraseStepList : List Slot → Nat → List Slot × Bool
  | [], _ => ([], false)
  | sl :: rest, s =>
    if sl.step = s ∧ sl.persistent = false then (rest, true)
    else
      let r := eraseStepList rest s
      (sl :: r.1, r.2)

/-- OnlineR2CheckpointStrategy::erase_step. -/
def erase_step (st : OnlineR2CheckpointStrategy) (stepIndex : Nat) :
    OnlineR2CheckpointStrategy × Bool :=
  let r := eraseStepList st.slots stepIndex
  ({ st with slots := r.1 }, r.2)

/-- OnlineR2CheckpointStrategy::contains_step. -/
def contains_step (st : OnlineR2CheckpointStrategy) (stepIndex : Nat) : Bool :=
  st.slots.any (fun sl => sl.step == stepIndex)

/-- OnlineR2CheckpointStrategy::reset: remove all non-persistent slots. -/
def reset (st : OnlineR2CheckpointStrategy) : OnlineR2CheckpointStrategy :=
  { st with slots := st.slots.filter (fun sl => sl.persistent) }

/-- OnlineR2CheckpointStrategy::capacity. -/
def capacity (st : OnlineR2CheckpointStrategy) : Nat := st.maxNumSlots

/-- OnlineR2CheckpointStrategy::size. -/
def size (st : OnlineR2CheckpointStrategy) : Nat := st.slots.length

/-- OnlineR2CheckpointStrategy::reset_metrics. -/
def reset_metrics (st : OnlineR2CheckpointStrategy) : OnlineR2CheckpointStrategy :=
  { st with metrics := ⟨0, 0, 0⟩ }

/-- OnlineR2CheckpointStrategy::record_recomputation. -/
def record_recomputation (st : OnlineR2CheckpointStrategy) : OnlineR2CheckpointStrategy :=
  { st with metrics :=
      { st.metrics with recomputations := (st.metrics.recomputations + 1) % size_t_mod } }

/-!
The forward/reverse driver of checkpoint.hpp, advance_and_reverse_steps.

The C++ function takes an optional strategy and defaults to
WangCheckpointStrategy, whose source is not among the provided files (only
online_r2_checkpoint_strategy and checkpoint.hpp are). The driver is
therefore embedded instantiated with the in-repository
OnlineR2CheckpointStrategy, passed through the documented strategy
parameter; every driver line is translated from checkpoint.hpp.

std::map of size_t to T is modelled as an association list with unique
keys. Reading savedCps at a key via operator[] default-constructs a T when
the key is absent; the model reads with an explicit default element, and
the proofs establish that on all verified paths the key is present.

The reverse sweep loop, for (size_t i = numSteps; i + 1 > 0; --i), runs
from i = numSteps down to i = 0 inclusive (the condition i + 1 > 0 fails
only after i wraps from 0 to 2^64 - 1); it is modelled by structural
descent on i, entering the body also at i = 0.

The inner restore loop, while (cps.last_checkpoint_step() < i), is
modelled with explicit fuel i: under the proved invariants each iteration
raises last_checkpoint_step by one, so at most i iterations run and the
fuel is never exhausted; a hypothetical C++ execution that loops forever
corresponds to the model returning at fuel 0.

The reverse callback is instrumented: instead of invoking a side-effecting
function the model appends each (i, x) argument pair to a trace list,
which the driver returns next to the final value. The statement
double xf = x captures the forward result before the reverse sweep; it is
returned unchanged.
-/

/-- Remove a key from the association list modelling std::map. -/
def mapErase {T : Type} (k : Nat) (m : List (Nat × T)) : List (Nat × T) :=
  m.filter (fun e => e.1 != k)

/-- Insert or overwrite a key in the association list (std::map
operator[] assignment). -/
def mapSet {T : Type} (k : Nat) (v : T) (m : List (Nat × T)) : List (Nat × T) :=
  (k, v) :: mapErase k m

/-- Lookup in the association list. -/
def mapGet? {T : Type} (k : Nat) (m : List (Nat × T)) : Option T :=
  (m.find? (fun e => e.1 == k)).map (fun e => e.2)

/-- Lookup with a default, modelling the value produced by std::map
operator[] on a read (a default-constructed T when the key is absent). -/
def mapGetD {T : Type} (k : Nat) (m : List (Nat × T)) (dflt : T) : T :=
  (mapGet? k m).getD dflt

/-- Naive forward iteration from the spec: the forward state at step k is
obtained by iterating the update function from the initial condition,
with x_0 the initial state and x_(k+1) the update applied at index k. -/
def iterUpd {T : Type} (upd : Nat → T → T) : Nat → T → T
  | 0, x0 => x0
  | k + 1, x0 => upd k (iterUpd upd k x0)

/-- State of the driver: the strategy, the savedCps map, the running state
x, and the instrumented trace of reverse_callback invocations. -/
structure DrvState (T : Type) where
  cps : OnlineR2CheckpointStrategy
  saved : List (Nat × T)
  x : T
  trace : List (Nat × T)

/-- The forward sweep body of advance_and_reverse_steps, iterated r times
starting at index i:
x = update_func(i, savedCps[i]); eraseStep = add(i+1, false); erase the
evicted entry when valid; savedCps[i+1] = x. -/
def fwdAux {T : Type} (upd : Nat → T → T) (dflt : T) :
    Nat → Nat → DrvState T → DrvState T
  | _, 0, st => st
  | i, r + 1, st =>
    let xv := upd i (mapGetD i st.saved dflt)
    let ar := add_checkpoint_and_get_index_to_remove st.cps (i + 1) false
    let saved1 := if valid_checkpoint_index ar.2 then mapErase ar.2 st.saved else st.saved
    let saved2 := mapSet (i + 1) xv saved1
    fwdAux upd dflt (i + 1) r { cps := ar.1, saved := saved2, x := xv, trace := st.trace }

/-- The restore loop of the reverse sweep:
while (cps.last_checkpoint_step() < i) replay one forward step from the
last checkpoint, checkpoint the result, and record a recomputation. Fuel
bounds the number of iterations; the proofs show fuel i suffices. -/
def restore {T : Type} (upd : Nat → T → T) (dflt : T) (i : Nat) :
    Nat → DrvState T → DrvState T
  | 0, st => st
  | fuel + 1, st =>
    if last_checkpoint_step st.cps < i then
      let lastCp := last_checkpoint_step st.cps
      let xv := upd lastCp (mapGetD lastCp st.saved dflt)
      let ar := add_checkpoint_and_get_index_to_remove st.cps (lastCp + 1) false
      let saved1 := if valid_checkpoint_index ar.2 then mapErase ar.2 st.saved else st.saved
      let saved2 := mapSet (lastCp + 1) xv saved1
      restore upd dflt i fuel
        { cps := record_recomputation ar.1, saved := saved2, x := xv, trace := st.trace }
    else st

/-- One iteration of the reverse sweep at index i: restore until the last
checkpoint reaches i, invoke reverse_callback(i, savedCps[i]) (recorded in
the trace), then erase_step(i) and savedCps.erase(i). -/
def revStep {T : Type} (upd : Nat → T → T) (dflt : T) (i : Nat) (st : DrvState T) : DrvState T :=
  let st1 := restore upd dflt i i st
  { cps := (erase_step st1.cps i).1,
    saved := mapErase i st1.saved,
    x := st1.x,
    trace := st1.trace ++ [(i, mapGetD i st1.saved dflt)] }

/-- The reverse sweep loop, running the body for i = numSteps down to 0
inclusive. -/
def revLoop {T : Type} (upd : Nat → T → T) (dflt : T) :
    Nat → DrvState T → DrvState T
  | 0, st => revStep upd dflt 0 st
  | i + 1, st => revLoop upd dflt i (revStep upd dflt (i + 1) st)

/-- advance_and_reverse_steps from checkpoint.hpp, instantiated with
OnlineR2CheckpointStrategy(storageSize) as the strategy and returning the
final value together with the instrumented reverse-callback trace. -/
def advance_and_reverse_steps {T : Type} (numSteps storageSize : Nat)
    (x0 : T) (upd : Nat → T → T) (dflt : T) : T × List (Nat × T) :=
  let cps0 := mkOnlineR2 storageSize
  let st0 : DrvState T :=
    { cps := (add_checkpoint_and_get_index_to_remove cps0 0 true).1,
      saved := mapSet 0 x0 [], x := x0, trace := [] }
  let stF := fwdAux upd dflt 0 numSteps st0
  let xf := stF.x
  let stR := revLoop upd dflt numSteps stF
  (xf, stR.trace)

/-- States reachable from the constructor by the public operations,
indexed by the construction capacity m and the number P of persistent
add calls performed. -/
inductive Reach (m : Nat) : Nat → OnlineR2CheckpointStrategy → Prop where
  | init : Reach m 0 (mkOnlineR2 m)
  | addOp (P : Nat) (st : OnlineR2CheckpointStrategy) (s : Nat) (p : Bool) :
      Reach m P st →
      Reach m (if p then P + 1 else P) (add_checkpoint_and_get_index_to_remove st s p).1
  | eraseOp (P : Nat) (st : OnlineR2CheckpointStrategy) (s : Nat) :
      Reach m P st → Reach m P (erase_step st s).1
  | resetOp (P : Nat) (st : OnlineR2CheckpointStrategy) :
      Reach m P st → Reach m P (reset st)
  | resetMetricsOp (P : Nat) (st : OnlineR2CheckpointStrategy) :
      Reach m P st → Reach m P (reset_metrics st)
  | recordOp (P : Nat) (st : OnlineR2CheckpointStrategy) :
      Reach m P st → Reach m P (record_recomputation st)

/-! Helper lemmas about the list-level operations. -/

theorem sub64_of_le {a b : Nat} (hba : b ≤ a) (ha : a < size_t_mod) : sub64 a b = a - b := by
  unfold sub64
  have hb : b < size_t_mod := lt_of_le_of_lt hba ha
  rw [Nat.mod_eq_of_lt hb]
  have h1 : a + (size_t_mod - b) = size_t_mod + (a - b) := by omega
  rw [h1, Nat.add_mod_left, Nat.mod_eq_of_lt (by omega)]

theorem length_insertSorted (l : List Slot) (a : Slot) :
    (insertSorted l a).length = l.length + 1 := by
  induction l with
  | nil => rfl
  | cons s rest ih =>
    unfold insertSorted
    by_cases h : s.step < a.step <;> simp [h, ih]

theorem mem_insertSorted {x : Slot} (l : List Slot) (a : Slot) :
    x ∈ insertSorted l a ↔ x ∈ l ∨ x = a := by
  induction l with
  | nil => simp [insertSorted]
  | cons s rest ih =>
    unfold insertSorted
    by_cases h : s.step < a.step
    · simp [h, ih]; tauto
    · simp [h]; tauto

theorem countP_insertSorted (p : Slot → Bool) (l : List Slot) (a : Slot) :
    (insertSorted l a).countP p = l.countP p + if p a then 1 else 0 := by
  induction l with
  | nil => by_cases h : p a <;> simp [insertSorted, List.countP_cons, h]
  | cons s rest ih =>
    unfold insertSorted
    by_cases h : s.step < a.step
    · by_cases hp : p s <;> simp [h, List.countP_cons, hp, ih] <;> omega
    · by_cases hp : p a <;> simp [h, List.countP_cons, hp] <;> omega

theorem insertSorted_eq_concat {l : List Slot} {a : Slot}
    (h : ∀ x ∈ l, x.step < a.step) : insertSorted l a = l ++ [a] := by
  induction l with
  | nil => rfl
  | cons s rest ih =>
    have hs : s.step < a.step := h s (by simp)
    unfold insertSorted
    simp [hs]
    exact ih (fun x hx => h x (by simp [hx]))

theorem pairwise_le_insertSorted {l : List Slot} {a : Slot}
    (h : l.Pairwise (fun x y => x.step ≤ y.step)) :
    (insertSorted l a).Pairwise (fun x y => x.step ≤ y.step) := by
  induction l with
  | nil => simp [insertSorted]
  | cons s rest ih =>
    rw [List.pairwise_cons] at h
    unfold insertSorted
    by_cases hlt : s.step < a.step
    · simp only [if_pos hlt]
      rw [List.pairwise_cons]
      constructor
      · intro x hx
        rcases (mem_insertSorted rest a).mp hx with hx | rfl
        · exact h.1 x hx
        · exact le_of_lt hlt
      · exact ih h.2
    · simp only [if_neg hlt]
      have ha : a.step ≤ s.step := Nat.le_of_not_lt hlt
      rw [List.pairwise_cons]
      refine ⟨?_, List.pairwise_cons.mpr h⟩
      intro x hx
      rcases List.mem_cons.mp hx with rfl | hx
      · exact ha
      · exact le_trans ha (h.1 x hx)

theorem mem_eraseIdx_or {x : Slot} :
    ∀ (l : List Slot) (i : Nat), x ∈ l →
      x ∈ l.eraseIdx i ∨ ∃ h : i < l.length, x = l.get ⟨i, h⟩ := by
  intro l
  induction l with
  | nil => intro i hx; cases hx
  | cons a t ih =>
    intro i hx
    cases i with
    | zero =>
      rcases List.mem_cons.mp hx with rfl | hx
      · exact Or.inr ⟨by simp, rfl⟩
      · exact Or.inl (by simpa [List.eraseIdx] using hx)
    | succ j =>
      rcases List.mem_cons.mp hx with rfl | hx
      · exact Or.inl (by simp [List.eraseIdx])
      · rcases ih j hx with h | ⟨hj, rfl⟩
        · exact Or.inl (by simp [List.eraseIdx, h])
        · exact Or.inr ⟨by simpa using Nat.succ_lt_succ hj, by simp⟩

theorem step_ne_of_eraseIdx :
    ∀ {l : List Slot}, l.Pairwise (fun x y => x.step < y.step) →
      ∀ {i : Nat} (hi : i < l.length) {x : Slot}, x ∈ l.eraseIdx i →
        x.step ≠ (l.get ⟨i, hi⟩).step := by
  intro l
  induction l with
  | nil => intro _ i hi; cases (Nat.not_lt_zero i) hi
  | cons a t ih =>
    intro hp i hi x hx
    rw [List.pairwise_cons] at hp
    cases i with
    | zero =>
      simp only [List.eraseIdx] at hx
      have := hp.1 x hx
      simp only [List.get]
      omega
    | succ j =>
      simp only [List.eraseIdx] at hx
      rcases List.mem_cons.mp hx with rfl | hx
      · have hj : j < t.length := by simpa using Nat.lt_of_succ_lt_succ hi
        have : (t.get ⟨j, hj⟩) ∈ t := List.get_mem t j hj
        have := hp.1 _ this
        simp only [List.get]
        omega
      · exact ih hp.2 _ hx

theorem eraseStepList_sublist (l : List Slot) (s : Nat) :
    (eraseStepList l s).1.Sublist l := by
  induction l with
  | nil => simp [eraseStepList]
  | cons a t ih =>
    unfold eraseStepList
    by_cases h : a.step = s ∧ a.persistent = false
    · simp [h]
    · simpa [h] using List.Sublist.cons₂ a ih

theorem eraseStepList_true_iff (l : List Slot) (s : Nat) :
    (eraseStepList l s).2 = true ↔ ∃ x ∈ l, x.step = s ∧ x.persistent = false := by
  induction l with
  | nil => simp [eraseStepList]
  | cons a t ih =>
    unfold eraseStepList
    by_cases h : a.step = s ∧ a.persistent = false
    · simp [h]
    · simp only [if_neg h]
      simp only [List.mem_cons, exists_eq_or_imp]
      constructor
      · intro hr; exact Or.inr (ih.mp hr)
      · rintro (ha | hr)
        · exact absurd ha h
        · exact ih.mpr hr

theorem eraseStepList_eq_of_false (l : List Slot) (s : Nat)
    (h : (eraseStepList l s).2 = false) : (eraseStepList l s).1 = l := by
  induction l with
  | nil => rfl
  | cons a t ih =>
    by_cases hc : a.step = s ∧ a.persistent = false
    · simp only [eraseStepList, if_pos hc] at h
      simp at h
    · simp only [eraseStepList, if_neg hc] at h ⊢
      simp [ih h]

theorem eraseStepList_length (l : List Slot) (s : Nat)
    (h : (eraseStepList l s).2 = true) : (eraseStepList l s).1.length + 1 = l.length := by
  induction l with
  | nil => simp [eraseStepList] at h
  | cons a t ih =>
    by_cases hc : a.step = s ∧ a.persistent = false
    · simp [eraseStepList, if_pos hc]
    · simp only [eraseStepList, if_neg hc] at h ⊢
      simp [ih h]

theorem mem_eraseStepList_of_mem {l : List Slot} {s : Nat} {x : Slot} (hx : x ∈ l) :
    x ∈ (eraseStepList l s).1 ∨ (x.step = s ∧ x.persistent = false) := by
  induction l with
  | nil => cases hx
  | cons a t ih =>
    unfold eraseStepList
    by_cases h : a.step = s ∧ a.persistent = false
    · rcases List.mem_cons.mp hx with rfl | hx
      · exact Or.inr h
      · simp [h, hx]
    · rcases List.mem_cons.mp hx with rfl | hx
      · simp [h]
      · rcases ih hx with hm | hs
        · simp [h, hm]
        · exact Or.inr hs

theorem eraseStepList_removes {l : List Slot} {s : Nat}
    (hp : l.Pairwise (fun x y => x.step < y.step))
    (hex : ∃ x ∈ l, x.step = s ∧ x.persistent = false) :
    (eraseStepList l s).2 = true ∧ ∀ x ∈ (eraseStepList l s).1, x.step ≠ s := by
  induction l with
  | nil => simp at hex
  | cons a t ih =>
    rw [List.pairwise_cons] at hp
    unfold eraseStepList
    by_cases hc : a.step = s ∧ a.persistent = false
    · refine ⟨by simp [hc], ?_⟩
      simp only [if_pos hc]
      intro x hx
      have := hp.1 x hx
      omega
    · simp only [if_neg hc]
      have hex' : ∃ x ∈ t, x.step = s ∧ x.persistent = false := by
        rcases hex with ⟨x, hxl, hxs⟩
        rcases List.mem_cons.mp hxl with rfl | hxl
        · exact absurd hxs hc
        · exact ⟨x, hxl, hxs⟩
      have has : a.step ≠ s := by
        rcases hex' with ⟨x, hxt, hxs, _⟩
        have := hp.1 x hxt
        omega
      rcases ih hp.2 hex' with ⟨h1, h2⟩
      refine ⟨by simp [h1], ?_⟩
      intro x hx
      rcases List.mem_cons.mp hx with rfl | hx
      · exact has
      · exact h2 x hx

theorem mapGet?_set_self {T : Type} (k : Nat) (v : T) (m : List (Nat × T)) :
    mapGet? k (mapSet k v m) = some v := by
  unfold mapGet? mapSet
  rw [List.find?_cons_of_pos _ (by simp)]
  rfl

theorem mapGet?_erase_self {T : Type} (k : Nat) (m : List (Nat × T)) :
    mapGet? k (mapErase k m) = none := by
  induction m with
  | nil => rfl
  | cons e rest ih =>
    unfold mapErase at ih ⊢
    rw [List.filter_cons]
    by_cases he : e.1 = k
    · have h1 : (e.1 != k) = false := by simp [he]
      rw [h1]
      simpa using ih
    · have h1 : (e.1 != k) = true := by simp [he]
      rw [if_pos h1]
      unfold mapGet? at ih ⊢
      rw [List.find?_cons_of_neg _ (by simp [he])]
      exact ih

theorem mapGet?_erase_ne {T : Type} {k k' : Nat} (h : k' ≠ k) (m : List (Nat × T)) :
    mapGet? k' (mapErase k m) = mapGet? k' m := by
  induction m with
  | nil => rfl
  | cons e rest ih =>
    unfold mapErase at ih ⊢
    rw [List.filter_cons]
    by_cases he : e.1 = k
    · have h1 : (e.1 != k) = false := by simp [he]
      rw [h1]
      simp only [Bool.false_eq_true, if_false]
      rw [ih]
      unfold mapGet?
      rw [List.find?_cons_of_neg _ (by simp [he]; omega)]
    · have h1 : (e.1 != k) = true := by simp [he]
      rw [if_pos h1]
      by_cases he' : e.1 = k'
      · unfold mapGet?
        rw [List.find?_cons_of_pos _ (by simp [he']),
          List.find?_cons_of_pos _ (by simp [he'])]
      · unfold mapGet? at ih ⊢
        rw [List.find?_cons_of_neg _ (by simp [he']),
          List.find?_cons_of_neg _ (by simp [he'])]
        exact ih

theorem mapGet?_set_ne {T : Type} {k k' : Nat} (h : k' ≠ k) (v : T) (m : List (Nat × T)) :
    mapGet? k' (mapSet k v m) = mapGet? k' m := by
  unfold mapSet
  unfold mapGet?
  rw [List.find?_cons_of_neg _ (by simp; omega)]
  exact mapGet?_erase_ne h m

theorem getLastD_mem {α : Type} : ∀ {l : List α} (d : α), l ≠ [] → l.getLastD d ∈ l := by
  intro l
  induction l with
  | nil => intro d h; exact absurd rfl h
  | cons a t ih =>
    intro d _
    rw [List.getLastD_cons]
    cases t with
    | nil => simp [List.getLastD]
    | cons b u => exact List.mem_cons_of_mem a (ih a (by simp))

theorem step_le_getLastD :
    ∀ {l : List Slot} (d : Slot), l.Pairwise (fun x y => x.step ≤ y.step) →
      ∀ x ∈ l, x.step ≤ (l.getLastD d).step := by
  intro l
  induction l with
  | nil => intro d _ x hx; cases hx
  | cons a t ih =>
    intro d hp x hx
    rw [List.pairwise_cons] at hp
    rw [List.getLastD_cons]
    rcases List.mem_cons.mp hx with h1 | hx
    · subst h1
      cases t with
      | nil => simp [List.getLastD]
      | cons b u => exact hp.1 _ (getLastD_mem _ (by simp))
    · exact ih a hp.2 x hx

theorem contains_step_iff (st : OnlineR2CheckpointStrategy) (s : Nat) :
    contains_step st s = true ↔ ∃ x ∈ st.slots, x.step = s := by
  simp [contains_step, List.any_eq_true]

theorem exists_nonpersistent_of_count {l : List Slot}
    (h : l.countP (fun sl => sl.persistent) < l.length) :
    ∃ x ∈ l, x.persistent = false := by
  by_contra hc
  push_neg at hc
  have : l.countP (fun sl => sl.persistent) = l.length := by
    rw [List.countP_eq_length]
    intro x hx
    have := hc x hx
    simpa using this
  omega

theorem countP_persistent_le_one {l : List Slot}
    (hlt : l.Pairwise (fun x y => x.step < y.step))
    (h0 : ∀ x ∈ l, x.persistent = true → x.step = 0) :
    l.countP (fun sl => sl.persistent) ≤ 1 := by
  induction l with
  | nil => simp
  | cons a t ih =>
    rw [List.pairwise_cons] at hlt
    rw [List.countP_cons]
    by_cases hpa : a.persistent = true
    · have ha0 : a.step = 0 := h0 a (by simp) hpa
      have ht : t.countP (fun sl => sl.persistent) = 0 := by
        rw [List.countP_eq_zero]
        intro x hx hpx
        have hx0 := h0 x (by simp [hx]) hpx
        have := hlt.1 x hx
        omega
      simp [hpa, ht]
    · have := ih hlt.2 (fun x hx hp => h0 x (by simp [hx]) hp)
      simp only [hpa]
      simpa using this

/-- Invariant of the find_eviction_candidate scan after processing the
first n indices: either no acceptable candidate was seen (and the
accumulator still holds the initial sentinel pair), or the accumulator
holds the first index among the processed ones attaining the minimal
merged gap, together with that gap. -/
def fecInv (slots : List Slot) (newStep : Nat) (n : Nat) (best : Nat × Nat) : Prop :=
  (best.1 = slots.length ∧ best.2 = size_t_mod - 1 ∧
    ∀ j, j < n → (slots.getD j ⟨0, false⟩).persistent = false →
      ¬ mergedGap slots newStep j < size_t_mod - 1)
  ∨ (best.1 < n ∧ (slots.getD best.1 ⟨0, false⟩).persistent = false ∧
      mergedGap slots newStep best.1 = best.2 ∧ best.2 < size_t_mod - 1 ∧
      (∀ j, j < n → (slots.getD j ⟨0, false⟩).persistent = false →
        best.2 ≤ mergedGap slots newStep j) ∧
      (∀ j, j < best.1 → (slots.getD j ⟨0, false⟩).persistent = false →
        best.2 < mergedGap slots newStep j))

theorem fecFold_inv (slots : List Slot) (newStep : Nat) :
    ∀ n, fecInv slots newStep n
      ((List.range n).foldl (fecStep slots newStep) (slots.length, size_t_mod - 1)) := by
  intro n
  induction n with
  | zero =>
    left
    exact ⟨rfl, rfl, fun j hj => absurd hj (Nat.not_lt_zero j)⟩
  | succ n ih =>
    rw [List.range_succ, List.foldl_concat]
    set b := (List.range n).foldl (fecStep slots newStep) (slots.length, size_t_mod - 1) with hb
    unfold fecStep
    by_cases hpers : (slots.getD n ⟨0, false⟩).persistent = true
    · simp only [if_pos hpers]
      rcases ih with ⟨h1, h2, h3⟩ | ⟨h1, h2, h3, h4, h5, h6⟩
      · left
        refine ⟨h1, h2, fun j hj hnp => ?_⟩
        rcases Nat.lt_succ_iff_lt_or_eq.mp hj with hj | rfl
        · exact h3 j hj hnp
        · rw [hpers] at hnp; cases hnp
      · right
        refine ⟨Nat.lt_succ_of_lt h1, h2, h3, h4, fun j hj hnp => ?_, h6⟩
        rcases Nat.lt_succ_iff_lt_or_eq.mp hj with hj | rfl
        · exact h5 j hj hnp
        · rw [hpers] at hnp; cases hnp
    · have hnp : (slots.getD n ⟨0, false⟩).persistent = false := by
        simpa using hpers
      simp only [if_neg hpers]
      by_cases hlt : mergedGap slots newStep n < b.2
      · simp only [if_pos hlt]
        have hgn : mergedGap slots newStep n < size_t_mod - 1 := by
          rcases ih with ⟨_, h2, _⟩ | ⟨_, _, _, h4, _, _⟩
          · omega
          · omega
        right
        refine ⟨Nat.lt_succ_self n, hnp, rfl, hgn, ?_, ?_⟩
        · intro j hj hj'
          rcases Nat.lt_succ_iff_lt_or_eq.mp hj with hj | rfl
          · rcases ih with ⟨_, h2, h3⟩ | ⟨_, _, _, _, h5, _⟩
            · have := h3 j hj hj'; omega
            · have := h5 j hj hj'; omega
          · exact le_refl _
        · intro j hj hj'
          rcases ih with ⟨_, h2, h3⟩ | ⟨_, _, _, _, h5, _⟩
          · have := h3 j (lt_of_lt_of_le hj (Nat.le_of_lt_succ (Nat.lt_succ_self n))) hj'
            omega
          · have := h5 j (lt_of_lt_of_le hj (Nat.le_of_lt_succ (Nat.lt_succ_self n))) hj'
            omega
      · simp only [if_neg hlt]
        rcases ih with ⟨h1, h2, h3⟩ | ⟨h1, h2, h3, h4, h5, h6⟩
        · left
          refine ⟨h1, h2, fun j hj hj' => ?_⟩
          rcases Nat.lt_succ_iff_lt_or_eq.mp hj with hj | rfl
          · exact h3 j hj hj'
          · omega
        · right
          refine ⟨Nat.lt_succ_of_lt h1, h2, h3, h4, fun j hj hj' => ?_, h6⟩
          rcases Nat.lt_succ_iff_lt_or_eq.mp hj with hj | rfl
          · exact h5 j hj hj'
          · omega

/-- On a step-sorted slot vector whose steps are bounded by the incoming
step, and with the incoming step below the sentinel, every merged gap is
an actual difference of neighbouring steps and lies strictly below the
initial bestMergedGap. -/
theorem mergedGap_lt_of_sorted {slots : List Slot} {newStep : Nat}
    (hp : slots.Pairwise (fun x y => x.step ≤ y.step))
    (hb : ∀ x ∈ slots, x.step ≤ newStep) (hn : newStep < size_t_mod - 1)
    {j : Nat} (hj : j < slots.length) :
    mergedGap slots newStep j < size_t_mod - 1 := by
  unfold mergedGap
  have hRn : (if j + 1 < slots.length then (slots.getD (j + 1) ⟨0, false⟩).step else newStep)
      ≤ newStep := by
    split
    · next h =>
      rw [List.getD_eq_get _ _ h]
      exact hb _ (List.get_mem _ _ _)
    · exact le_refl _
  have hLR : (if j = 0 then 0 else (slots.getD (j - 1) ⟨0, false⟩).step)
      ≤ (if j + 1 < slots.length then (slots.getD (j + 1) ⟨0, false⟩).step else newStep) := by
    by_cases hj0 : j = 0
    · simp [hj0]
    · rw [if_neg hj0]
      have hj1 : j - 1 < slots.length := by omega
      rw [List.getD_eq_get _ _ hj1]
      by_cases hj2 : j + 1 < slots.length
      · rw [if_pos hj2, List.getD_eq_get _ _ hj2]
        exact List.pairwise_iff_get.mp hp ⟨j - 1, hj1⟩ ⟨j + 1, hj2⟩ (by simp; omega)
      · rw [if_neg hj2]
        exact hb _ (List.get_mem _ _ _)
  rw [sub64_of_le hLR (by omega)]
  omega

/-- When some non-persistent slot with an acceptable merged gap exists,
find_eviction_candidate returns the first index attaining the minimal
merged gap over the non-persistent slots. -/
theorem fec_spec {slots : List Slot} {newStep : Nat}
    (hex : ∃ j, ∃ h : j < slots.length, (slots.get ⟨j, h⟩).persistent = false ∧
        mergedGap slots newStep j < size_t_mod - 1) :
    ∃ h : find_eviction_candidate slots newStep < slots.length,
      (slots.get ⟨find_eviction_candidate slots newStep, h⟩).persistent = false ∧
      (∀ j (hj : j < slots.length), (slots.get ⟨j, hj⟩).persistent = false →
        mergedGap slots newStep (find_eviction_candidate slots newStep) ≤
          mergedGap slots newStep j) ∧
      (∀ j, j < find_eviction_candidate slots newStep →
        ∀ hj : j < slots.length, (slots.get ⟨j, hj⟩).persistent = false →
          mergedGap slots newStep (find_eviction_candidate slots newStep) <
            mergedGap slots newStep j) := by
  have hinv : fecInv slots newStep slots.length (fecFold slots newStep) :=
    fecFold_inv slots newStep slots.length
  rcases hex with ⟨j, hj, hnp, hgap⟩
  have hnpD : (slots.getD j ⟨0, false⟩).persistent = false := by
    rw [List.getD_eq_get _ _ hj]; exact hnp
  rcases hinv with ⟨h1, h2, h3⟩ | ⟨h1, h2, h3, h4, h5, h6⟩
  · exact absurd hgap (h3 j hj hnpD)
  · unfold find_eviction_candidate
    refine ⟨h1, ?_, ?_, ?_⟩
    · rw [← List.getD_eq_get _ _ h1]
      exact h2
    · intro j' hj' hnp'
      have : (slots.getD j' ⟨0, false⟩).persistent = false := by
        rw [List.getD_eq_get _ _ hj']; exact hnp'
      have := h5 j' hj' this
      omega
    · intro j' hlt hj' hnp'
      have : (slots.getD j' ⟨0, false⟩).persistent = false := by
        rw [List.getD_eq_get _ _ hj']; exact hnp'
      have := h6 j' hlt this
      omega

/-- Full case analysis of add_checkpoint_and_get_index_to_remove: the new
capacity and metric counters, and the three branches (insert below
capacity, evict-and-insert, drop). -/
theorem add_cases (st : OnlineR2CheckpointStrategy) (s : Nat) (p : Bool) :
    (add_checkpoint_and_get_index_to_remove st s p).1.maxNumSlots =
      (if p then (st.maxNumSlots + 1) % size_t_mod else st.maxNumSlots) ∧
    (add_checkpoint_and_get_index_to_remove st s p).1.metrics.stores =
      (st.metrics.stores + 1) % size_t_mod ∧
    (add_checkpoint_and_get_index_to_remove st s p).1.metrics.recomputations =
      st.metrics.recomputations ∧
    (add_checkpoint_and_get_index_to_remove st s p).1.metrics.evictions =
      (if valid_checkpoint_index (add_checkpoint_and_get_index_to_remove st s p).2 then
        (st.metrics.evictions + 1) % size_t_mod else st.metrics.evictions) ∧
    ((st.slots.length < (if p then (st.maxNumSlots + 1) % size_t_mod else st.maxNumSlots) ∧
        (add_checkpoint_and_get_index_to_remove st s p).1.slots = insertSorted st.slots ⟨s, p⟩ ∧
        (add_checkpoint_and_get_index_to_remove st s p).2 = invalidCheckpointIndex)
     ∨ (¬ st.slots.length < (if p then (st.maxNumSlots + 1) % size_t_mod else st.maxNumSlots) ∧
        ∃ h : find_eviction_candidate st.slots s < st.slots.length,
          (add_checkpoint_and_get_index_to_remove st s p).1.slots =
            insertSorted (st.slots.eraseIdx (find_eviction_candidate st.slots s)) ⟨s, p⟩ ∧
          (add_checkpoint_and_get_index_to_remove st s p).2 =
            (st.slots.get ⟨find_eviction_candidate st.slots s, h⟩).step)
     ∨ (¬ st.slots.length < (if p then (st.maxNumSlots + 1) % size_t_mod else st.maxNumSlots) ∧
        ¬ find_eviction_candidate st.slots s < st.slots.length ∧
        (add_checkpoint_and_get_index_to_remove st s p).1.slots = st.slots ∧
        (add_checkpoint_and_get_index_to_remove st s p).2 = invalidCheckpointIndex)) := by
  cases p
  · by_cases h1 : st.slots.length < st.maxNumSlots
    · simp [add_checkpoint_and_get_index_to_remove, h1]
    · by_cases h2 : find_eviction_candidate st.slots s < st.slots.length
      · refine ⟨?_, ?_, ?_, ?_, Or.inr (Or.inl ⟨h1, h2, ?_, ?_⟩)⟩ <;>
          simp [add_checkpoint_and_get_index_to_remove, h1, h2]
      · refine ⟨?_, ?_, ?_, ?_, Or.inr (Or.inr ⟨h1, h2, ?_, ?_⟩)⟩ <;>
          simp [add_checkpoint_and_get_index_to_remove, h1, h2]
  · by_cases h1 : st.slots.length < (st.maxNumSlots + 1) % size_t_mod
    · simp [add_checkpoint_and_get_index_to_remove, h1]
    · by_cases h2 : find_eviction_candidate st.slots s < st.slots.length
      · refine ⟨?_, ?_, ?_, ?_, Or.inr (Or.inl ⟨h1, h2, ?_, ?_⟩)⟩ <;>
          simp [add_checkpoint_and_get_index_to_remove, h1, h2]
      · refine ⟨?_, ?_, ?_, ?_, Or.inr (Or.inr ⟨h1, h2, ?_, ?_⟩)⟩ <;>
          simp [add_checkpoint_and_get_index_to_remove, h1, h2]

/-- Invariant of all reachable strategy states: the capacity field equals
the constructed capacity plus the number of persistent adds (mod 2^64),
the slot count is bounded by that sum, the number of stored persistent
slots is at most the number of persistent adds, and the slot vector is
sorted by step. -/
theorem reach_inv {m P : Nat} {st : OnlineR2CheckpointStrategy}
    (h : Reach m P st) (hm : m < size_t_mod) :
    st.maxNumSlots = (m + P) % size_t_mod ∧
    st.slots.length ≤ m + P ∧
    st.slots.countP (fun sl => sl.persistent) ≤ P ∧
    st.slots.Pairwise (fun x y => x.step ≤ y.step) := by
  induction h with
  | init =>
    refine ⟨?_, ?_, ?_, ?_⟩ <;> simp [mkOnlineR2, Nat.mod_eq_of_lt hm]
  | addOp P st s p hr ih =>
    obtain ⟨ihm, ihl, ihc, ihp⟩ := ih
    obtain ⟨hmax, _, _, _, hbr⟩ := add_cases st s p
    have hpair : (add_checkpoint_and_get_index_to_remove st s p).1.slots.Pairwise
        (fun x y => x.step ≤ y.step) := by
      rcases hbr with ⟨hlt, hsl, _⟩ | ⟨hge, hfec, hsl, _⟩ | ⟨hge, hnf, hsl, _⟩
      · rw [hsl]; exact pairwise_le_insertSorted ihp
      · rw [hsl]
        exact pairwise_le_insertSorted
          (List.Pairwise.sublist (List.eraseIdx_sublist _ _) ihp)
      · rw [hsl]; exact ihp
    cases p
    · simp only [Bool.false_eq_true, if_false] at hmax hbr ⊢
      refine ⟨by rw [hmax, ihm], ?_, ?_, hpair⟩
      · rcases hbr with ⟨hlt, hsl, _⟩ | ⟨hge, hfec, hsl, _⟩ | ⟨hge, hnf, hsl, _⟩
        · rw [hsl, length_insertSorted]
          rw [ihm] at hlt
          have := Nat.mod_le (m + P) size_t_mod
          omega
        · rw [hsl, length_insertSorted, List.length_eraseIdx, if_pos hfec]
          have h0 : 0 < st.slots.length := lt_of_le_of_lt (Nat.zero_le _) hfec
          omega
        · rw [hsl]; exact ihl
      · rcases hbr with ⟨hlt, hsl, _⟩ | ⟨hge, hfec, hsl, _⟩ | ⟨hge, hnf, hsl, _⟩
        · rw [hsl, countP_insertSorted]
          simp only [Bool.false_eq_true, if_false]
          omega
        · rw [hsl, countP_insertSorted]
          have hsub := List.Sublist.countP_le (fun sl => sl.persistent)
            (List.eraseIdx_sublist st.slots (find_eviction_candidate st.slots s))
          simp only [Bool.false_eq_true, if_false]
          omega
        · rw [hsl]; exact ihc
    · simp only [if_true] at hmax hbr ⊢
      refine ⟨?_, ?_, ?_, hpair⟩
      · rw [hmax, ihm, Nat.mod_add_mod, Nat.add_assoc]
      · rcases hbr with ⟨hlt, hsl, _⟩ | ⟨hge, hfec, hsl, _⟩ | ⟨hge, hnf, hsl, _⟩
        · rw [hsl, length_insertSorted]
          omega
        · rw [hsl, length_insertSorted, List.length_eraseIdx, if_pos hfec]
          have h0 : 0 < st.slots.length := lt_of_le_of_lt (Nat.zero_le _) hfec
          omega
        · rw [hsl]; omega
      · rcases hbr with ⟨hlt, hsl, _⟩ | ⟨hge, hfec, hsl, _⟩ | ⟨hge, hnf, hsl, _⟩
        · rw [hsl, countP_insertSorted]
          simp only [eq_self_iff_true, if_true]
          omega
        · rw [hsl, countP_insertSorted]
          have hsub := List.Sublist.countP_le (fun sl => sl.persistent)
            (List.eraseIdx_sublist st.slots (find_eviction_candidate st.slots s))
          simp only [eq_self_iff_true, if_true]
          omega
        · rw [hsl]; omega
  | eraseOp P st s hr ih =>
    obtain ⟨ihm, ihl, ihc, ihp⟩ := ih
    have hsub : (erase_step st s).1.slots.Sublist st.slots := eraseStepList_sublist _ _
    refine ⟨ihm, le_trans hsub.length_le ihl,
      le_trans (List.Sublist.countP_le _ hsub) ihc, List.Pairwise.sublist hsub ihp⟩
  | resetOp P st hr ih =>
    obtain ⟨ihm, ihl, ihc, ihp⟩ := ih
    have hsub : (reset st).slots.Sublist st.slots := List.filter_sublist _
    refine ⟨ihm, le_trans hsub.length_le ihl,
      le_trans (List.Sublist.countP_le _ hsub) ihc, List.Pairwise.sublist hsub ihp⟩
  | resetMetricsOp P st hr ih => exact ih
  | recordOp P st hr ih => exact ih

theorem contains_step_false_iff (st : OnlineR2CheckpointStrategy) (s : Nat) :
    contains_step st s = false ↔ ∀ x ∈ st.slots, x.step ≠ s := by
  simp [contains_step, List.any_eq_false]

theorem step_ne_of_eraseIdx_nodup :
    ∀ {l : List Slot}, (l.map Slot.step).Nodup →
      ∀ {i : Nat} (hi : i < l.length) {x : Slot}, x ∈ l.eraseIdx i →
        x.step ≠ (l.get ⟨i, hi⟩).step := by
  intro l
  induction l with
  | nil => intro _ i hi; cases (Nat.not_lt_zero i) hi
  | cons a t ih =>
    intro hnd i hi x hx
    rw [List.map_cons, List.nodup_cons] at hnd
    cases i with
    | zero =>
      simp only [List.eraseIdx] at hx
      intro hstep
      have hga : ((a :: t).get ⟨0, hi⟩) = a := rfl
      rw [hga] at hstep
      exact hnd.1 (by rw [← hstep]; exact List.mem_map_of_mem _ hx)
    | succ j =>
      simp only [List.eraseIdx] at hx
      have hj : j < t.length := by simpa using Nat.lt_of_succ_lt_succ hi
      have hga : ((a :: t).get ⟨j + 1, hi⟩) = t.get ⟨j, hj⟩ := rfl
      rw [hga]
      rcases List.mem_cons.mp hx with heq | hx
      · rw [heq]
        intro hstep
        refine hnd.1 ?_
        rw [hstep]
        exact List.mem_map_of_mem _ (List.get_mem t j hj)
      · exact ih hnd.2 _ hx

/-- Claim C3 counterexample: add(5, false) twice on a fresh strategy of
capacity 3 does not fail and does not leave the state unchanged: the
second call inserts a second slot with step 5 (the source performs no
duplicate check and no InvariantViolation exists on this path). -/
theorem claim_c3_counterexample :
    (add_checkpoint_and_get_index_to_remove
        (add_checkpoint_and_get_index_to_remove (mkOnlineR2 3) 5 false).1 5 false).1.slots
      = [⟨5, false⟩, ⟨5, false⟩]
    ∧ (add_checkpoint_and_get_index_to_remove (mkOnlineR2 3) 5 false).1.slots
      = [⟨5, false⟩] := by
  constructor <;> decide

/-- Claim C3 amended: add with an already-present step does not fail and
does mutate the state: below capacity the slot is inserted again, so the
step becomes stored twice and the state differs from the pre-call state. -/
theorem claim_c3_amended (st : OnlineR2CheckpointStrategy) (s : Nat)
    (hin : contains_step st s = true) (hlt : st.slots.length < st.maxNumSlots) :
    (add_checkpoint_and_get_index_to_remove st s false).1.slots.length = st.slots.length + 1
    ∧ contains_step (add_checkpoint_and_get_index_to_remove st s false).1 s = true
    ∧ (add_checkpoint_and_get_index_to_remove st s false).1 ≠ st := by
  obtain ⟨_, _, _, _, hbr⟩ := add_cases st s false
  simp only [Bool.false_eq_true, if_false] at hbr
  rcases hbr with ⟨_, hsl, _⟩ | ⟨hge, _, _, _⟩ | ⟨hge, _, _, _⟩
  · refine ⟨by rw [hsl, length_insertSorted], ?_, ?_⟩
    · rw [contains_step_iff]
      exact ⟨⟨s, false⟩, by rw [hsl]; exact (mem_insertSorted _ _).mpr (Or.inr rfl), rfl⟩
    · intro heq
      have : (add_checkpoint_and_get_index_to_remove st s false).1.slots.length
          = st.slots.length := by rw [heq]
      rw [hsl, length_insertSorted] at this
      omega
  · exact absurd hlt hge
  · exact absurd hlt hge

/-- Claim C3 amended, witness at a concrete input. -/
theorem claim_c3_amended_witness :
    contains_step (add_checkpoint_and_get_index_to_remove (mkOnlineR2 3) 5 false).1 5 = true
    ∧ (add_checkpoint_and_get_index_to_remove
        (add_checkpoint_and_get_index_to_remove (mkOnlineR2 3) 5 false).1 5
        false).1.slots.length
      = (add_checkpoint_and_get_index_to_remove (mkOnlineR2 3) 5 false).1.slots.length + 1 :=
  ⟨by decide,
    (claim_c3_amended (add_checkpoint_and_get_index_to_remove (mkOnlineR2 3) 5 false).1 5
      (by decide) (by decide)).1⟩

/-- Claim C7: erase_step removes a slot with the given step iff one is
present and non-persistent, and returns true exactly when a removal
occurred; a false return leaves the state unchanged; persistent slots are
never removed; at most one slot is removed. -/
theorem claim_c7_erase_step (st : OnlineR2CheckpointStrategy) (s : Nat) :
    ((erase_step st s).2 = true ↔ ∃ sl ∈ st.slots, sl.step = s ∧ sl.persistent = false)
    ∧ ((erase_step st s).2 = false → (erase_step st s).1 = st)
    ∧ (∀ sl ∈ st.slots, sl.persistent = true → sl ∈ (erase_step st s).1.slots)
    ∧ (∀ sl ∈ st.slots, sl ∈ (erase_step st s).1.slots ∨ (sl.step = s ∧ sl.persistent = false))
    ∧ ((erase_step st s).2 = true → (erase_step st s).1.slots.length + 1 = st.slots.length) := by
  refine ⟨eraseStepList_true_iff st.slots s, ?_, ?_, ?_, eraseStepList_length st.slots s⟩
  · intro h
    have heq := eraseStepList_eq_of_false st.slots s h
    show ({ st with slots := (eraseStepList st.slots s).1 } : OnlineR2CheckpointStrategy) = st
    rw [heq]
  · intro sl hsl hp
    rcases mem_eraseStepList_of_mem hsl with hm | ⟨_, hps⟩
    · exact hm
    · rw [hp] at hps; cases hps
  · intro sl hsl
    exact mem_eraseStepList_of_mem hsl

/-- Claim C7, witness: scenario S4 — erase_step(0) on a strategy whose
step 0 is persistent returns false, keeps step 0 stored and leaves the
state unchanged. -/
theorem claim_c7_witness :
    (erase_step (add_checkpoint_and_get_index_to_remove (mkOnlineR2 2) 0 true).1 0).2 = false
    ∧ (erase_step (add_checkpoint_and_get_index_to_remove (mkOnlineR2 2) 0 true).1 0).1
      = (add_checkpoint_and_get_index_to_remove (mkOnlineR2 2) 0 true).1
    ∧ contains_step
        (erase_step (add_checkpoint_and_get_index_to_remove (mkOnlineR2 2) 0 true).1 0).1 0
      = true := by
  have h := claim_c7_erase_step (add_checkpoint_and_get_index_to_remove (mkOnlineR2 2) 0 true).1 0
  exact ⟨by decide, h.2.1 (by decide), by decide⟩

/-- Claim C5 counterexample: on a strategy constructed with maxStates = 0,
a persistent add of step 1 followed by a non-persistent add of step 2
takes the drop branch: after the call contains_step(2) is false, refuting
the unconditional claim that the added step is always stored afterwards. -/
theorem claim_c5_counterexample :
    contains_step
      (add_checkpoint_and_get_index_to_remove
        (add_checkpoint_and_get_index_to_remove (mkOnlineR2 0) 1 true).1 2 false).1 2 = false
    ∧ (add_checkpoint_and_get_index_to_remove
        (add_checkpoint_and_get_index_to_remove (mkOnlineR2 0) 1 true).1 2 false).2
      = invalidCheckpointIndex := by
  constructor <;> decide

/-- Claim C5 amended: provided the call does not take the drop branch
(i.e. there is room, or an eviction candidate exists; persistent adds
need room after the capacity increment) and the stored steps are distinct
with the incoming step fresh, the added step is stored afterwards, the
return value is the sentinel or a step stored before and no longer stored
after, and at most one slot is removed. -/
theorem claim_c5_amended (st : OnlineR2CheckpointStrategy) (s : Nat) (p : Bool)
    (hnd : (st.slots.map Slot.step).Nodup)
    (hfresh : contains_step st s = false)
    (hins : if p then st.slots.length < (st.maxNumSlots + 1) % size_t_mod
      else st.slots.length < st.maxNumSlots
        ∨ find_eviction_candidate st.slots s < st.slots.length) :
    contains_step (add_checkpoint_and_get_index_to_remove st s p).1 s = true
    ∧ ((add_checkpoint_and_get_index_to_remove st s p).2 = invalidCheckpointIndex
       ∨ (contains_step st (add_checkpoint_and_get_index_to_remove st s p).2 = true
          ∧ contains_step (add_checkpoint_and_get_index_to_remove st s p).1
              (add_checkpoint_and_get_index_to_remove st s p).2 = false))
    ∧ (∀ sl ∈ st.slots, sl ∈ (add_checkpoint_and_get_index_to_remove st s p).1.slots
        ∨ sl.step = (add_checkpoint_and_get_index_to_remove st s p).2) := by
  obtain ⟨_, _, _, _, hbr⟩ := add_cases st s p
  have hfresh' := (contains_step_false_iff st s).mp hfresh
  rcases hbr with ⟨hlt, hsl, hret⟩ | ⟨hge, hfec, hsl, hret⟩ | ⟨hge, hnf, hsl, hret⟩
  · refine ⟨?_, Or.inl hret, ?_⟩
    · rw [contains_step_iff]
      exact ⟨⟨s, p⟩, by rw [hsl]; exact (mem_insertSorted _ _).mpr (Or.inr rfl), rfl⟩
    · intro sl hm
      exact Or.inl (by rw [hsl]; exact (mem_insertSorted _ _).mpr (Or.inl hm))
  · have hget : (st.slots.get ⟨find_eviction_candidate st.slots s, hfec⟩) ∈ st.slots :=
      List.get_mem _ _ _
    refine ⟨?_, Or.inr ⟨?_, ?_⟩, ?_⟩
    · rw [contains_step_iff]
      exact ⟨⟨s, p⟩, by rw [hsl]; exact (mem_insertSorted _ _).mpr (Or.inr rfl), rfl⟩
    · rw [contains_step_iff]
      exact ⟨_, hget, hret.symm⟩
    · rw [contains_step_false_iff]
      intro x hx
      rw [hsl] at hx
      rcases (mem_insertSorted _ _).mp hx with hx | rfl
      · rw [hret]
        exact step_ne_of_eraseIdx_nodup hnd hfec hx
      · rw [hret]
        intro heq
        exact hfresh' _ hget heq.symm
    · intro sl hm
      rcases mem_eraseIdx_or st.slots (find_eviction_candidate st.slots s) hm with hx | ⟨hh, hx⟩
      · exact Or.inl (by rw [hsl]; exact (mem_insertSorted _ _).mpr (Or.inl hx))
      · refine Or.inr ?_
        rw [hret, hx]
  · exfalso
    cases p
    · simp only [Bool.false_eq_true, if_false] at hins
      rcases hins with hins | hins
      · exact hge hins
      · exact hnf hins
    · simp only [if_true] at hins
      exact hge hins

/-- Claim C5 amended, witness at a concrete input. -/
theorem claim_c5_amended_witness :
    contains_step
      (add_checkpoint_and_get_index_to_remove
        (add_checkpoint_and_get_index_to_remove (mkOnlineR2 2) 3 false).1 7 false).1 7 = true :=
  (claim_c5_amended (add_checkpoint_and_get_index_to_remove (mkOnlineR2 2) 3 false).1 7 false
    (by decide) (by decide) (by decide)).1

/-- Claim C4: at capacity, on a non-persistent add of a step that is at
least every stored step and below the sentinel, with the slot vector
step-sorted and at least one non-persistent slot stored, the evicted slot
is the non-persistent slot at the lowest vector index minimizing the
merged gap; a later slot replaces the incumbent candidate only on a
strictly smaller merged gap. -/
theorem claim_c4_eviction (st : OnlineR2CheckpointStrategy) (s : Nat)
    (hsorted : st.slots.Pairwise (fun x y => x.step ≤ y.step))
    (hb : ∀ x ∈ st.slots, x.step ≤ s) (hs : s < size_t_mod - 1)
    (hcap : ¬ st.slots.length < st.maxNumSlots)
    (hex : ∃ x ∈ st.slots, x.persistent = false) :
    ∃ h : find_eviction_candidate st.slots s < st.slots.length,
      (st.slots.get ⟨find_eviction_candidate st.slots s, h⟩).persistent = false
      ∧ (add_checkpoint_and_get_index_to_remove st s false).2 =
          (st.slots.get ⟨find_eviction_candidate st.slots s, h⟩).step
      ∧ (add_checkpoint_and_get_index_to_remove st s false).1.slots =
          insertSorted (st.slots.eraseIdx (find_eviction_candidate st.slots s)) ⟨s, false⟩
      ∧ (∀ j (hj : j < st.slots.length), (st.slots.get ⟨j, hj⟩).persistent = false →
          mergedGap st.slots s (find_eviction_candidate st.slots s) ≤ mergedGap st.slots s j)
      ∧ (∀ j, j < find_eviction_candidate st.slots s →
          ∀ hj : j < st.slots.length, (st.slots.get ⟨j, hj⟩).persistent = false →
            mergedGap st.slots s (find_eviction_candidate st.slots s) < mergedGap st.slots s j) := by
  have hex' : ∃ j, ∃ h : j < st.slots.length, (st.slots.get ⟨j, h⟩).persistent = false ∧
      mergedGap st.slots s j < size_t_mod - 1 := by
    rcases hex with ⟨x, hxm, hxp⟩
    rcases List.mem_iff_get.mp hxm with ⟨⟨j, hj⟩, hget⟩
    exact ⟨j, hj, by rw [hget]; exact hxp, mergedGap_lt_of_sorted hsorted hb hs hj⟩
  obtain ⟨hlt, hnp, hmin, hfirst⟩ := fec_spec hex'
  obtain ⟨_, _, _, _, hbr⟩ := add_cases st s false
  simp only [Bool.false_eq_true, if_false] at hbr
  rcases hbr with ⟨hlt2, _, _⟩ | ⟨_, hfec, hsl, hret⟩ | ⟨_, hnf, _, _⟩
  · exact absurd hlt2 hcap
  · exact ⟨hlt, hnp, hret, hsl, hmin, hfirst⟩
  · exact absurd hlt hnf

/-- Claim C4, witness at a concrete input: capacity 2 holding persistent
slot 0 and non-persistent slot 3; add(5, false) evicts index 1, step 3. -/
theorem claim_c4_witness :
    ∃ h : find_eviction_candidate [⟨0, true⟩, ⟨3, false⟩] 5 <
        ({ maxNumSlots := 2, slots := [⟨0, true⟩, ⟨3, false⟩], metrics := ⟨0, 0, 0⟩ }
          : OnlineR2CheckpointStrategy).slots.length,
      (([⟨0, true⟩, ⟨3, false⟩] : List Slot).get
          ⟨find_eviction_candidate [⟨0, true⟩, ⟨3, false⟩] 5, h⟩).persistent = false
      ∧ (add_checkpoint_and_get_index_to_remove
          { maxNumSlots := 2, slots := [⟨0, true⟩, ⟨3, false⟩], metrics := ⟨0, 0, 0⟩ } 5 false).2 =
          (([⟨0, true⟩, ⟨3, false⟩] : List Slot).get
            ⟨find_eviction_candidate [⟨0, true⟩, ⟨3, false⟩] 5, h⟩).step
      ∧ (add_checkpoint_and_get_index_to_remove
          { maxNumSlots := 2, slots := [⟨0, true⟩, ⟨3, false⟩], metrics := ⟨0, 0, 0⟩ } 5 false).1.slots =
          insertSorted (([⟨0, true⟩, ⟨3, false⟩] : List Slot).eraseIdx
            (find_eviction_candidate [⟨0, true⟩, ⟨3, false⟩] 5)) ⟨5, false⟩
      ∧ (∀ j (hj : j < ([⟨0, true⟩, ⟨3, false⟩] : List Slot).length),
          (([⟨0, true⟩, ⟨3, false⟩] : List Slot).get ⟨j, hj⟩).persistent = false →
          mergedGap [⟨0, true⟩, ⟨3, false⟩] 5 (find_eviction_candidate [⟨0, true⟩, ⟨3, false⟩] 5) ≤
            mergedGap [⟨0, true⟩, ⟨3, false⟩] 5 j)
      ∧ (∀ j, j < find_eviction_candidate [⟨0, true⟩, ⟨3, false⟩] 5 →
          ∀ hj : j < ([⟨0, true⟩, ⟨3, false⟩] : List Slot).length,
            (([⟨0, true⟩, ⟨3, false⟩] : List Slot).get ⟨j, hj⟩).persistent = false →
            mergedGap [⟨0, true⟩, ⟨3, false⟩] 5 (find_eviction_candidate [⟨0, true⟩, ⟨3, false⟩] 5) <
              mergedGap [⟨0, true⟩, ⟨3, false⟩] 5 j) :=
  claim_c4_eviction
    { maxNumSlots := 2, slots := [⟨0, true⟩, ⟨3, false⟩], metrics := ⟨0, 0, 0⟩ } 5
    (by simp) (by decide) (by decide) (by decide) (by decide)

/-- Claim C6 counterexample: from the reachable state holding persistent
slot 7 and non-persistent slot 9 at capacity (maxStates = 1, one
persistent add, distinct step arguments, no size_t overflow), the
non-persistent add of step 6 takes the drop branch even though a
non-persistent slot is stored: the merged gap of the rightmost slot is
6 - 7 in size_t, which wraps to the maximum and never beats the
maximum-initialized incumbent of the scan, so no candidate is found, the
new slot is dropped without insertion and the sentinel is returned —
exactly the branch the claim calls unreachable. -/
theorem claim_c6_counterexample :
    Reach 1 1
      (add_checkpoint_and_get_index_to_remove
        (add_checkpoint_and_get_index_to_remove (mkOnlineR2 1) 7 true).1 9 false).1
    ∧ (add_checkpoint_and_get_index_to_remove
        (add_checkpoint_and_get_index_to_remove (mkOnlineR2 1) 7 true).1 9 false).1.slots.length
      = (add_checkpoint_and_get_index_to_remove
          (add_checkpoint_and_get_index_to_remove (mkOnlineR2 1) 7 true).1 9 false).1.maxNumSlots
    ∧ (∃ x ∈ (add_checkpoint_and_get_index_to_remove
          (add_checkpoint_and_get_index_to_remove (mkOnlineR2 1) 7 true).1 9 false).1.slots,
        x.persistent = false)
    ∧ (add_checkpoint_and_get_index_to_remove
        (add_checkpoint_and_get_index_to_remove
          (add_checkpoint_and_get_index_to_remove (mkOnlineR2 1) 7 true).1 9 false).1
        6 false).2 = invalidCheckpointIndex
    ∧ contains_step
        (add_checkpoint_and_get_index_to_remove
          (add_checkpoint_and_get_index_to_remove
            (add_checkpoint_and_get_index_to_remove (mkOnlineR2 1) 7 true).1 9 false).1
          6 false).1 6 = false
    ∧ (add_checkpoint_and_get_index_to_remove
        (add_checkpoint_and_get_index_to_remove
          (add_checkpoint_and_get_index_to_remove (mkOnlineR2 1) 7 true).1 9 false).1
        6 false).1.slots
      = (add_checkpoint_and_get_index_to_remove
          (add_checkpoint_and_get_index_to_remove (mkOnlineR2 1) 7 true).1 9 false).1.slots :=
  ⟨Reach.addOp 1 _ 9 false (Reach.addOp 0 (mkOnlineR2 1) 7 true Reach.init),
    by decide, by decide, by decide, by decide, by decide⟩

/-- Claim C6 amended: in every reachable state of a strategy constructed
with maxStates ≥ 1 (no size_t overflow of the capacity counter), a state
at capacity always stores at least one non-persistent slot; the drop
branch of a non-persistent add nevertheless remains reachable for an
added step below a stored neighbour (the size_t merged gap wraps), and
is unreachable exactly for adds whose step is at least every stored step
and below the sentinel — the only adds the driver performs — where an
eviction candidate is always found and the added step is stored. -/
theorem claim_c6_amended {m P : Nat} {st : OnlineR2CheckpointStrategy}
    (h : Reach m P st) (hm : 1 ≤ m) (hov : m + P < size_t_mod)
    (hcap : st.slots.length = st.maxNumSlots) :
    (∃ x ∈ st.slots, x.persistent = false)
    ∧ (∀ s, (∀ x ∈ st.slots, x.step ≤ s) → s < size_t_mod - 1 →
        find_eviction_candidate st.slots s < st.slots.length
        ∧ contains_step (add_checkpoint_and_get_index_to_remove st s false).1 s = true) := by
  obtain ⟨h1, h2, h3, hsort⟩ := reach_inv h (by omega)
  rw [Nat.mod_eq_of_lt hov] at h1
  have hex : ∃ x ∈ st.slots, x.persistent = false := by
    apply exists_nonpersistent_of_count
    omega
  refine ⟨hex, ?_⟩
  intro s hb hs
  have hex' : ∃ j, ∃ hj : j < st.slots.length, (st.slots.get ⟨j, hj⟩).persistent = false ∧
      mergedGap st.slots s j < size_t_mod - 1 := by
    rcases hex with ⟨x, hxm, hxp⟩
    rcases List.mem_iff_get.mp hxm with ⟨⟨j, hj⟩, hget⟩
    exact ⟨j, hj, by rw [hget]; exact hxp, mergedGap_lt_of_sorted hsort hb hs hj⟩
  obtain ⟨hlt, _, _, _⟩ := fec_spec hex'
  refine ⟨hlt, ?_⟩
  obtain ⟨_, _, _, _, hbr⟩ := add_cases st s false
  simp only [Bool.false_eq_true, if_false] at hbr
  rcases hbr with ⟨_, hsl, _⟩ | ⟨_, hfec, hsl, _⟩ | ⟨_, hnf, _, _⟩
  · rw [contains_step_iff]
    exact ⟨⟨s, false⟩, by rw [hsl]; exact (mem_insertSorted _ _).mpr (Or.inr rfl), rfl⟩
  · rw [contains_step_iff]
    exact ⟨⟨s, false⟩, by rw [hsl]; exact (mem_insertSorted _ _).mpr (Or.inr rfl), rfl⟩
  · exact absurd hlt hnf

/-- Claim C6 amended, witness: capacity 1, one non-persistent add of step
7 reaches a state at capacity; a non-persistent slot exists there, and a
further add of the larger step 9 finds an eviction candidate and stores
step 9 rather than dropping it. -/
theorem claim_c6_amended_witness :
    (∃ x ∈ (add_checkpoint_and_get_index_to_remove (mkOnlineR2 1) 7 false).1.slots,
      x.persistent = false)
    ∧ find_eviction_candidate
        (add_checkpoint_and_get_index_to_remove (mkOnlineR2 1) 7 false).1.slots 9
      < (add_checkpoint_and_get_index_to_remove (mkOnlineR2 1) 7 false).1.slots.length
    ∧ contains_step
        (add_checkpoint_and_get_index_to_remove
          (add_checkpoint_and_get_index_to_remove (mkOnlineR2 1) 7 false).1 9 false).1 9
      = true := by
  have h := claim_c6_amended (Reach.addOp 0 (mkOnlineR2 1) 7 false Reach.init)
    (by decide) (by decide) (by decide)
  exact ⟨h.1, (h.2 9 (by decide) (by decide)).1, (h.2 9 (by decide) (by decide)).2⟩

/-- Claim C8 counterexample: constructed with maxStates = 2^64 - 1, three
non-persistent adds store one slot, then a persistent add wraps the
size_t capacity counter to 0 while a slot remains stored: size() exceeds
capacity(), refuting the unconditional invariant. -/
theorem claim_c8_counterexample :
    Reach (size_t_mod - 1) 1
      (add_checkpoint_and_get_index_to_remove
        (add_checkpoint_and_get_index_to_remove (mkOnlineR2 (size_t_mod - 1)) 1 false).1
        2 true).1
    ∧ ¬ size (add_checkpoint_and_get_index_to_remove
          (add_checkpoint_and_get_index_to_remove (mkOnlineR2 (size_t_mod - 1)) 1 false).1
          2 true).1
        ≤ capacity (add_checkpoint_and_get_index_to_remove
          (add_checkpoint_and_get_index_to_remove (mkOnlineR2 (size_t_mod - 1)) 1 false).1
          2 true).1 :=
  ⟨Reach.addOp 0 _ 2 true (Reach.addOp 0 (mkOnlineR2 (size_t_mod - 1)) 1 false Reach.init),
    by decide⟩

/-- Claim C8 amended: in every reachable state, provided the size_t
capacity counter does not overflow, size() ≤ capacity() holds and
capacity() equals the constructed maxStates plus the number of persistent
adds performed. -/
theorem claim_c8_amended {m P : Nat} {st : OnlineR2CheckpointStrategy}
    (h : Reach m P st) (hov : m + P < size_t_mod) :
    size st ≤ capacity st ∧ capacity st = m + P := by
  obtain ⟨h1, h2, _, _⟩ := reach_inv h (by omega)
  rw [Nat.mod_eq_of_lt hov] at h1
  constructor
  · rw [size, capacity, h1]
    exact h2
  · rw [capacity, h1]

/-- Claim C8 amended, witness at a concrete reachable state. -/
theorem claim_c8_amended_witness :
    size (erase_step (add_checkpoint_and_get_index_to_remove (mkOnlineR2 2) 4 true).1 9).1
      ≤ capacity (erase_step (add_checkpoint_and_get_index_to_remove (mkOnlineR2 2) 4 true).1 9).1
    ∧ capacity (erase_step (add_checkpoint_and_get_index_to_remove (mkOnlineR2 2) 4 true).1 9).1
      = 2 + 1 :=
  claim_c8_amended
    (Reach.eraseOp 1 _ 9 (Reach.addOp 0 (mkOnlineR2 2) 4 true Reach.init)) (by decide)

/-- Claim C9: in every reachable non-empty state the slot vector is sorted
by step, and last_checkpoint_step returns a stored step that is greatest
among all stored steps. -/
theorem claim_c9_last_greatest {m P : Nat} {st : OnlineR2CheckpointStrategy}
    (h : Reach m P st) (hm : m < size_t_mod) (hne : st.slots ≠ []) :
    st.slots.Pairwise (fun x y => x.step ≤ y.step)
    ∧ contains_step st (last_checkpoint_step st) = true
    ∧ ∀ x ∈ st.slots, x.step ≤ last_checkpoint_step st := by
  obtain ⟨_, _, _, hp⟩ := reach_inv h hm
  refine ⟨hp, ?_, ?_⟩
  · rw [contains_step_iff]
    exact ⟨_, getLastD_mem _ hne, rfl⟩
  · exact step_le_getLastD _ hp

/-- Claim C9, witness at a concrete reachable state with two slots. -/
theorem claim_c9_witness :
    contains_step
      (add_checkpoint_and_get_index_to_remove
        (add_checkpoint_and_get_index_to_remove (mkOnlineR2 3) 2 false).1 6 false).1
      (last_checkpoint_step
        (add_checkpoint_and_get_index_to_remove
          (add_checkpoint_and_get_index_to_remove (mkOnlineR2 3) 2 false).1 6 false).1) = true
    ∧ ∀ x ∈ (add_checkpoint_and_get_index_to_remove
        (add_checkpoint_and_get_index_to_remove (mkOnlineR2 3) 2 false).1 6 false).1.slots,
        x.step ≤ last_checkpoint_step
          (add_checkpoint_and_get_index_to_remove
            (add_checkpoint_and_get_index_to_remove (mkOnlineR2 3) 2 false).1 6 false).1 :=
  ⟨(claim_c9_last_greatest
      (Reach.addOp 0 _ 6 false (Reach.addOp 0 (mkOnlineR2 3) 2 false Reach.init))
      (by decide) (by decide)).2.1,
    (claim_c9_last_greatest
      (Reach.addOp 0 _ 6 false (Reach.addOp 0 (mkOnlineR2 3) 2 false Reach.init))
      (by decide) (by decide)).2.2⟩

/-- Claim C10: every add call increments the stores counter by exactly one
(in every branch, including the drop branch), and increments the
evictions counter by one iff the returned value satisfies
valid_checkpoint_index; the hypotheses keep the size_t counters below
their wrap point. -/
theorem claim_c10_metrics (st : OnlineR2CheckpointStrategy) (s : Nat) (p : Bool)
    (h1 : st.metrics.stores < size_t_mod - 1)
    (h2 : st.metrics.evictions < size_t_mod - 1) :
    (add_checkpoint_and_get_index_to_remove st s p).1.metrics.stores = st.metrics.stores + 1
    ∧ ((add_checkpoint_and_get_index_to_remove st s p).1.metrics.evictions
        = st.metrics.evictions + 1
       ↔ valid_checkpoint_index (add_checkpoint_and_get_index_to_remove st s p).2 = true)
    ∧ (valid_checkpoint_index (add_checkpoint_and_get_index_to_remove st s p).2 = false →
        (add_checkpoint_and_get_index_to_remove st s p).1.metrics.evictions
          = st.metrics.evictions) := by
  obtain ⟨_, hst, _, hev, _⟩ := add_cases st s p
  have hms : (st.metrics.stores + 1) % size_t_mod = st.metrics.stores + 1 :=
    Nat.mod_eq_of_lt (by omega)
  have hme : (st.metrics.evictions + 1) % size_t_mod = st.metrics.evictions + 1 :=
    Nat.mod_eq_of_lt (by omega)
  refine ⟨by rw [hst, hms], ?_, ?_⟩
  · by_cases hv : valid_checkpoint_index (add_checkpoint_and_get_index_to_remove st s p).2 = true
    · rw [hev, if_pos hv, hme]
      exact iff_of_true rfl hv
    · rw [hev, if_neg hv]
      constructor
      · intro he; omega
      · intro he; exact absurd he hv
  · intro hv
    rw [hev, if_neg (by rw [hv]; simp)]

/-- Claim C10, witness: a fresh strategy, one non-persistent add below
capacity; stores goes from 0 to 1, the sentinel is returned and evictions
stays 0. -/
theorem claim_c10_witness :
    (add_checkpoint_and_get_index_to_remove (mkOnlineR2 2) 5 false).1.metrics.stores
      = (mkOnlineR2 2).metrics.stores + 1
    ∧ (valid_checkpoint_index (add_checkpoint_and_get_index_to_remove (mkOnlineR2 2) 5 false).2
        = false →
      (add_checkpoint_and_get_index_to_remove (mkOnlineR2 2) 5 false).1.metrics.evictions
        = (mkOnlineR2 2).metrics.evictions) :=
  ⟨(claim_c10_metrics (mkOnlineR2 2) 5 false (by decide) (by decide)).1,
    (claim_c10_metrics (mkOnlineR2 2) 5 false (by decide) (by decide)).2.2⟩

/-! Invariants of the driver advance_and_reverse_steps. -/

/-- Strategy-state invariant maintained by the driver: slots strictly
sorted by step and bounded by `bound`, persistent slots exactly the
step-0 slot (which is present), capacity C + 1 (the construction capacity
plus the persistent registration of step 0), slot count within it. -/
structure CpsInv (C bound : Nat) (cps : OnlineR2CheckpointStrategy) : Prop where
  sorted : cps.slots.Pairwise (fun x y => x.step < y.step)
  bounded : ∀ x ∈ cps.slots, x.step ≤ bound
  pers0 : ∀ x ∈ cps.slots, x.persistent = true → x.step = 0
  zeroPers : ∀ x ∈ cps.slots, x.step = 0 → x.persistent = true
  zeroMem : (⟨0, true⟩ : Slot) ∈ cps.slots
  maxEq : cps.maxNumSlots = C + 1
  lenLe : cps.slots.length ≤ C + 1

theorem cpsInv_mono {C b b' : Nat} {cps : OnlineR2CheckpointStrategy}
    (h : CpsInv C b cps) (hb : b ≤ b') : CpsInv C b' cps :=
  ⟨h.sorted, fun x hx => le_trans (h.bounded x hx) hb, h.pers0, h.zeroPers,
    h.zeroMem, h.maxEq, h.lenLe⟩

theorem cpsInv_record {C b : Nat} {cps : OnlineR2CheckpointStrategy}
    (h : CpsInv C b cps) : CpsInv C b (record_recomputation cps) :=
  ⟨h.sorted, h.bounded, h.pers0, h.zeroPers, h.zeroMem, h.maxEq, h.lenLe⟩

theorem nodup_steps_of_sorted {l : List Slot}
    (h : l.Pairwise (fun x y => x.step < y.step)) : (l.map Slot.step).Nodup := by
  rw [List.Nodup, List.pairwise_map]
  exact h.imp (fun hxy => Nat.ne_of_lt hxy)

theorem fec_nonpersistent {slots : List Slot} {newStep : Nat}
    (h : find_eviction_candidate slots newStep < slots.length) :
    (slots.get ⟨find_eviction_candidate slots newStep, h⟩).persistent = false := by
  have hinv : fecInv slots newStep slots.length (fecFold slots newStep) :=
    fecFold_inv slots newStep slots.length
  rcases hinv with ⟨h1, _, _⟩ | ⟨_, h2, _⟩
  · unfold find_eviction_candidate at h
    omega
  · rw [← List.getD_eq_get _ _ h]
    exact h2

theorem sorted_strict_concat {l : List Slot} {s : Nat} {p : Bool}
    (hp : l.Pairwise (fun x y => x.step < y.step)) (h : ∀ x ∈ l, x.step < s) :
    List.Pairwise (fun x y => x.step < y.step) (l ++ [(⟨s, p⟩ : Slot)]) := by
  rw [List.pairwise_append]
  refine ⟨hp, by simp, fun a ha b hb => ?_⟩
  rw [List.mem_singleton.mp hb]
  exact h a ha

/-- Effect of a non-persistent add of a step strictly above every stored
step, on a strategy state satisfying the driver invariant: the new slot
lands at the end of the vector (so last_checkpoint_step advances to it),
the invariant is preserved with the new bound, and the call either
returns the sentinel having evicted nothing or returns the step of an
evicted non-persistent slot which is no longer stored. -/
theorem drv_add {C bound : Nat} {cps : OnlineR2CheckpointStrategy} {s : Nat}
    (inv : CpsInv C bound cps) (hC : 1 ≤ C)
    (hgt : ∀ x ∈ cps.slots, x.step < s) (hs1 : 1 ≤ s) (hs : s < size_t_mod - 1) :
    CpsInv C s (add_checkpoint_and_get_index_to_remove cps s false).1
    ∧ last_checkpoint_step (add_checkpoint_and_get_index_to_remove cps s false).1 = s
    ∧ ((add_checkpoint_and_get_index_to_remove cps s false).2 = invalidCheckpointIndex
        ∨ (1 ≤ (add_checkpoint_and_get_index_to_remove cps s false).2
           ∧ (add_checkpoint_and_get_index_to_remove cps s false).2 < s
           ∧ ∀ x ∈ (add_checkpoint_and_get_index_to_remove cps s false).1.slots,
               x.step ≠ (add_checkpoint_and_get_index_to_remove cps s false).2))
    ∧ (∀ x ∈ (add_checkpoint_and_get_index_to_remove cps s false).1.slots,
        x ∈ cps.slots ∨ x = ⟨s, false⟩) := by
  obtain ⟨_, _, _, _, hbr⟩ := add_cases cps s false
  simp only [Bool.false_eq_true, if_false] at hbr
  have hnd := nodup_steps_of_sorted inv.sorted
  rcases hbr with ⟨hlt, hsl, hret⟩ | ⟨hge, hfec, hsl, hret⟩ | ⟨hge, hnf, hsl, hret⟩
  · -- below capacity: plain insert at the end
    have hconc : insertSorted cps.slots ⟨s, false⟩ = cps.slots ++ [⟨s, false⟩] :=
      insertSorted_eq_concat hgt
    rw [hconc] at hsl
    refine ⟨⟨?_, ?_, ?_, ?_, ?_, ?_, ?_⟩, ?_, Or.inl hret, ?_⟩
    · rw [hsl]; exact sorted_strict_concat inv.sorted hgt
    · intro x hx
      rw [hsl] at hx
      rcases List.mem_append.mp hx with hx | hx
      · exact le_of_lt (hgt x hx)
      · rw [List.mem_singleton.mp hx]
    · intro x hx hper
      rw [hsl] at hx
      rcases List.mem_append.mp hx with hx | hx
      · exact inv.pers0 x hx hper
      · rw [List.mem_singleton.mp hx] at hper; cases hper
    · intro x hx hz
      rw [hsl] at hx
      rcases List.mem_append.mp hx with hx | hx
      · exact inv.zeroPers x hx hz
      · rw [List.mem_singleton.mp hx] at hz
        simp at hz
        omega
    · rw [hsl]; exact List.mem_append.mpr (Or.inl inv.zeroMem)
    · rw [(add_cases cps s false).1]
      simp only [Bool.false_eq_true, if_false]
      exact inv.maxEq
    · rw [hsl, List.length_append]
      simp only [List.length_singleton]
      rw [inv.maxEq] at hlt
      omega
    · rw [last_checkpoint_step, hsl, List.getLastD_concat]
    · intro x hx
      rw [hsl] at hx
      rcases List.mem_append.mp hx with hx | hx
      · exact Or.inl hx
      · exact Or.inr (List.mem_singleton.mp hx)
  · -- at capacity: evict the candidate, insert at the end
    set idx := find_eviction_candidate cps.slots s with hidx
    have hmem : cps.slots.get ⟨idx, hfec⟩ ∈ cps.slots := List.get_mem _ _ _
    have hnp : (cps.slots.get ⟨idx, hfec⟩).persistent = false := fec_nonpersistent hfec
    have hstep1 : 1 ≤ (cps.slots.get ⟨idx, hfec⟩).step := by
      rcases Nat.eq_zero_or_pos (cps.slots.get ⟨idx, hfec⟩).step with hz | hpos
      · have := inv.zeroPers _ hmem hz
        rw [this] at hnp; cases hnp
      · exact hpos
    have hgtE : (cps.slots.get ⟨idx, hfec⟩).step < s := hgt _ hmem
    have hsubm : ∀ x ∈ cps.slots.eraseIdx idx, x ∈ cps.slots :=
      fun x hx => (List.eraseIdx_sublist cps.slots idx).subset hx
    have hconc : insertSorted (cps.slots.eraseIdx idx) ⟨s, false⟩ =
        cps.slots.eraseIdx idx ++ [⟨s, false⟩] :=
      insertSorted_eq_concat (fun x hx => hgt x (hsubm x hx))
    rw [hconc] at hsl
    have hpair' : (cps.slots.eraseIdx idx).Pairwise (fun x y => x.step < y.step) :=
      List.Pairwise.sublist (List.eraseIdx_sublist _ _) inv.sorted
    refine ⟨⟨?_, ?_, ?_, ?_, ?_, ?_, ?_⟩, ?_, ?_, ?_⟩
    · rw [hsl]
      exact sorted_strict_concat hpair' (fun x hx => hgt x (hsubm x hx))
    · intro x hx
      rw [hsl] at hx
      rcases List.mem_append.mp hx with hx | hx
      · exact le_of_lt (hgt x (hsubm x hx))
      · rw [List.mem_singleton.mp hx]
    · intro x hx hper
      rw [hsl] at hx
      rcases List.mem_append.mp hx with hx | hx
      · exact inv.pers0 x (hsubm x hx) hper
      · rw [List.mem_singleton.mp hx] at hper; cases hper
    · intro x hx hz
      rw [hsl] at hx
      rcases List.mem_append.mp hx with hx | hx
      · exact inv.zeroPers x (hsubm x hx) hz
      · rw [List.mem_singleton.mp hx] at hz
        simp at hz
        omega
    · rw [hsl]
      refine List.mem_append.mpr (Or.inl ?_)
      rcases mem_eraseIdx_or cps.slots idx inv.zeroMem with hx | ⟨hh, hx⟩
      · exact hx
      · exfalso
        have : (cps.slots.get ⟨idx, hh⟩).persistent = false := fec_nonpersistent hh
        rw [← hx] at this
        cases this
    · rw [(add_cases cps s false).1]
      simp only [Bool.false_eq_true, if_false]
      exact inv.maxEq
    · rw [hsl, List.length_append, List.length_eraseIdx, if_pos hfec]
      simp only [List.length_singleton]
      have := inv.lenLe
      have h0 : 0 < cps.slots.length := lt_of_le_of_lt (Nat.zero_le _) hfec
      omega
    · rw [last_checkpoint_step, hsl, List.getLastD_concat]
    · refine Or.inr ⟨by rw [hret]; exact hstep1, by rw [hret]; exact hgtE, ?_⟩
      intro x hx
      rw [hsl] at hx
      rw [hret]
      rcases List.mem_append.mp hx with hx | hx
      · exact step_ne_of_eraseIdx_nodup hnd hfec hx
      · rw [List.mem_singleton.mp hx]
        show s ≠ (cps.slots.get ⟨idx, hfec⟩).step
        omega
    · intro x hx
      rw [hsl] at hx
      rcases List.mem_append.mp hx with hx | hx
      · exact Or.inl (hsubm x hx)
      · exact Or.inr (List.mem_singleton.mp hx)
  · -- drop branch: impossible under the driver invariant
    exfalso
    have hlen : cps.slots.length = C + 1 := by
      have := inv.lenLe
      rw [inv.maxEq] at hge
      omega
    have hcount : cps.slots.countP (fun sl => sl.persistent) ≤ 1 :=
      countP_persistent_le_one inv.sorted inv.pers0
    have hex : ∃ x ∈ cps.slots, x.persistent = false := by
      apply exists_nonpersistent_of_count
      omega
    have hex' : ∃ j, ∃ h : j < cps.slots.length, (cps.slots.get ⟨j, h⟩).persistent = false ∧
        mergedGap cps.slots s j < size_t_mod - 1 := by
      rcases hex with ⟨x, hxm, hxp⟩
      rcases List.mem_iff_get.mp hxm with ⟨⟨j, hj⟩, hget⟩
      refine ⟨j, hj, by rw [hget]; exact hxp, ?_⟩
      exact mergedGap_lt_of_sorted (inv.sorted.imp (fun h => le_of_lt h))
        (fun x hx => le_of_lt (hgt x hx)) hs hj
    obtain ⟨hlt, _, _, _⟩ := fec_spec hex'
    exact hnf hlt

/-- Every value stored in the savedCps map equals the forward state at its
key. -/
def savedOK {T : Type} (upd : Nat → T → T) (x0 : T) (saved : List (Nat × T)) : Prop :=
  ∀ k v, mapGet? k saved = some v → v = iterUpd upd k x0

/-- Every step stored by the strategy has its state present in the
savedCps map. -/
def keysOK {T : Type} (cps : OnlineR2CheckpointStrategy) (saved : List (Nat × T)) : Prop :=
  ∀ x ∈ cps.slots, ∃ v, mapGet? x.step saved = some v

theorem savedOK_erase {T : Type} {upd : Nat → T → T} {x0 : T} {saved : List (Nat × T)}
    (h : savedOK upd x0 saved) (k : Nat) : savedOK upd x0 (mapErase k saved) := by
  intro k' v hv
  by_cases hk : k' = k
  · rw [hk, mapGet?_erase_self] at hv; cases hv
  · rw [mapGet?_erase_ne hk] at hv
    exact h k' v hv

theorem savedOK_set {T : Type} {upd : Nat → T → T} {x0 : T} {saved : List (Nat × T)}
    (h : savedOK upd x0 saved) (k : Nat) :
    savedOK upd x0 (mapSet k (iterUpd upd k x0) saved) := by
  intro k' v hv
  by_cases hk : k' = k
  · rw [hk, mapGet?_set_self] at hv
    cases hv
    rw [hk]
  · rw [mapGet?_set_ne hk] at hv
    exact h k' v hv

theorem getD_of_keys {T : Type} {upd : Nat → T → T} {x0 dflt : T}
    {cps : OnlineR2CheckpointStrategy} {saved : List (Nat × T)}
    (hsok : savedOK upd x0 saved) (hkok : keysOK cps saved)
    {x : Slot} (hx : x ∈ cps.slots) :
    mapGetD x.step saved dflt = iterUpd upd x.step x0 := by
  rcases hkok x hx with ⟨v, hv⟩
  rw [mapGetD, hv, Option.getD_some]
  exact hsok _ _ hv

/-- The slot holding last_checkpoint_step is stored, provided the slot
vector is non-empty. -/
theorem last_mem {cps : OnlineR2CheckpointStrategy} (hne : cps.slots ≠ []) :
    ∃ x ∈ cps.slots, x.step = last_checkpoint_step cps :=
  ⟨_, getLastD_mem _ hne, rfl⟩

/-- One forward step executed by the driver bodies: read the state at the
last checkpoint, apply the update, checkpoint the successor step, and
update the savedCps map honoring the eviction. The strategy invariant,
the map invariants and the last-checkpoint tracking all advance by one. -/
theorem drv_body {T : Type} (upd : Nat → T → T) (x0 dflt : T) {C bound l : Nat}
    {cps : OnlineR2CheckpointStrategy} {saved : List (Nat × T)}
    (hC : 1 ≤ C) (hcinv : CpsInv C bound cps) (hsok : savedOK upd x0 saved)
    (hkok : keysOK cps saved) (hlast : last_checkpoint_step cps = l)
    (hl : l + 1 < size_t_mod - 1) :
    upd l (mapGetD l saved dflt) = iterUpd upd (l + 1) x0
    ∧ CpsInv C (l + 1) (add_checkpoint_and_get_index_to_remove cps (l + 1) false).1
    ∧ last_checkpoint_step (add_checkpoint_and_get_index_to_remove cps (l + 1) false).1 = l + 1
    ∧ savedOK upd x0
        (mapSet (l + 1) (upd l (mapGetD l saved dflt))
          (if valid_checkpoint_index (add_checkpoint_and_get_index_to_remove cps (l + 1) false).2
            then mapErase (add_checkpoint_and_get_index_to_remove cps (l + 1) false).2 saved
            else saved))
    ∧ keysOK (add_checkpoint_and_get_index_to_remove cps (l + 1) false).1
        (mapSet (l + 1) (upd l (mapGetD l saved dflt))
          (if valid_checkpoint_index (add_checkpoint_and_get_index_to_remove cps (l + 1) false).2
            then mapErase (add_checkpoint_and_get_index_to_remove cps (l + 1) false).2 saved
            else saved)) := by
  have hne : cps.slots ≠ [] := by
    intro hemp
    have := hcinv.zeroMem
    rw [hemp] at this
    cases this
  obtain ⟨z, hzm, hzs⟩ := last_mem hne
  have hsortedLe : cps.slots.Pairwise (fun x y => x.step ≤ y.step) :=
    hcinv.sorted.imp (fun h => le_of_lt h)
  have hstepsLe : ∀ x ∈ cps.slots, x.step ≤ l := by
    intro x hx
    have := step_le_getLastD (⟨0, false⟩ : Slot) hsortedLe x hx
    rw [← last_checkpoint_step, hlast] at this
    exact this
  have hgetl : mapGetD l saved dflt = iterUpd upd l x0 := by
    rw [← hlast, ← hzs]
    exact getD_of_keys hsok hkok hzm
  have hx1 : upd l (mapGetD l saved dflt) = iterUpd upd (l + 1) x0 := by
    rw [hgetl]
    rfl
  obtain ⟨hinv', hlast', hret, hsub⟩ := drv_add hcinv hC
    (fun x hx => lt_of_le_of_lt (hstepsLe x hx) (Nat.lt_succ_self l))
    (Nat.succ_le_succ (Nat.zero_le l)) hl
  refine ⟨hx1, hinv', hlast', ?_, ?_⟩
  · rw [hx1]
    split
    · exact savedOK_set (savedOK_erase hsok _) (l + 1)
    · exact savedOK_set hsok (l + 1)
  · intro x hx
    rcases hsub x hx with hxo | hxn

    · -- an old slot: its key survives both the conditional erase and the set
      have hxl : x.step ≤ l := hstepsLe x hxo
      have hxne1 : x.step ≠ l + 1 := by omega
      rcases hret with hinv2 | ⟨hge1, hlt1, hne2⟩
      · rw [hinv2]
        have : valid_checkpoint_index invalidCheckpointIndex = false := by
          simp [valid_checkpoint_index]
        rw [this]
        simp only [Bool.false_eq_true, if_false]
        rcases hkok x hxo with ⟨v, hv⟩
        exact ⟨v, by rw [mapGet?_set_ne hxne1]; exact hv⟩
      · have hxneE : x.step ≠ (add_checkpoint_and_get_index_to_remove cps (l + 1) false).2 :=
          hne2 x hx
        rcases hkok x hxo with ⟨v, hv⟩
        refine ⟨v, ?_⟩
        rw [mapGet?_set_ne hxne1]
        split
        · rw [mapGet?_erase_ne hxneE]
          exact hv
        · exact hv
    · -- the new slot: its key was just set
      rw [hxn]
      exact ⟨upd l (mapGetD l saved dflt), mapGet?_set_self _ _ _⟩

theorem restore_succ {T : Type} (upd : Nat → T → T) (dflt : T) (i fuel : Nat)
    (st : DrvState T) (h : last_checkpoint_step st.cps < i) :
    restore upd dflt i (fuel + 1) st =
      restore upd dflt i fuel
        { cps := record_recomputation
            (add_checkpoint_and_get_index_to_remove st.cps
              (last_checkpoint_step st.cps + 1) false).1,
          saved := mapSet (last_checkpoint_step st.cps + 1)
              (upd (last_checkpoint_step st.cps)
                (mapGetD (last_checkpoint_step st.cps) st.saved dflt))
              (if valid_checkpoint_index
                  (add_checkpoint_and_get_index_to_remove st.cps
                    (last_checkpoint_step st.cps + 1) false).2 then
                mapErase
                  (add_checkpoint_and_get_index_to_remove st.cps
                    (last_checkpoint_step st.cps + 1) false).2 st.saved
              else st.saved),
          x := upd (last_checkpoint_step st.cps)
              (mapGetD (last_checkpoint_step st.cps) st.saved dflt),
          trace := st.trace } := by
  rw [restore, if_pos h]

theorem restore_stop {T : Type} (upd : Nat → T → T) (dflt : T) (i fuel : Nat)
    (st : DrvState T) (h : ¬ last_checkpoint_step st.cps < i) :
    restore upd dflt i (fuel + 1) st = st := by
  rw [restore, if_neg h]

/-- The restore loop, run with enough fuel from a state satisfying the
driver invariant at bound i, terminates with the last checkpoint exactly
at i, preserving the invariant and leaving the trace untouched. -/
theorem restore_spec {T : Type} (upd : Nat → T → T) (x0 dflt : T) {C : Nat} (hC : 1 ≤ C)
    (i : Nat) (hi : i < size_t_mod - 1) :
    ∀ (fuel : Nat) (st : DrvState T),
      CpsInv C i st.cps → savedOK upd x0 st.saved → keysOK st.cps st.saved →
      i ≤ last_checkpoint_step st.cps + fuel →
      CpsInv C i (restore upd dflt i fuel st).cps
      ∧ savedOK upd x0 (restore upd dflt i fuel st).saved
      ∧ keysOK (restore upd dflt i fuel st).cps (restore upd dflt i fuel st).saved
      ∧ last_checkpoint_step (restore upd dflt i fuel st).cps = i
      ∧ (restore upd dflt i fuel st).trace = st.trace := by
  intro fuel
  induction fuel with
  | zero =>
    intro st h1 h2 h3 hfe
    have hne : st.cps.slots ≠ [] := by
      intro hemp
      have := h1.zeroMem
      rw [hemp] at this
      cases this
    obtain ⟨z, hzm, hzs⟩ := last_mem hne
    have hle : last_checkpoint_step st.cps ≤ i := by
      rw [← hzs]
      exact h1.bounded z hzm
    have : restore upd dflt i 0 st = st := rfl
    rw [this]
    exact ⟨h1, h2, h3, by omega, rfl⟩
  | succ fuel ih =>
    intro st h1 h2 h3 hfe
    by_cases hlt : last_checkpoint_step st.cps < i
    · rw [restore_succ upd dflt i fuel st hlt]
      have hl1 : last_checkpoint_step st.cps + 1 < size_t_mod - 1 := by omega
      obtain ⟨hx1, hinv', hlast', hsok', hkok'⟩ :=
        drv_body upd x0 dflt hC h1 h2 h3 rfl hl1
      have hinv'' := cpsInv_record hinv'
      have hmono := cpsInv_mono hinv'' (by omega : last_checkpoint_step st.cps + 1 ≤ i)
      have hlast'' : last_checkpoint_step
          (record_recomputation
            (add_checkpoint_and_get_index_to_remove st.cps
              (last_checkpoint_step st.cps + 1) false).1)
          = last_checkpoint_step st.cps + 1 := hlast'
      exact ih _ hmono hsok' hkok' (by rw [hlast'']; omega)
    · rw [restore_stop upd dflt i fuel st hlt]
      have hne : st.cps.slots ≠ [] := by
        intro hemp
        have := h1.zeroMem
        rw [hemp] at this
        cases this
      obtain ⟨z, hzm, hzs⟩ := last_mem hne
      have hle : last_checkpoint_step st.cps ≤ i := by
        rw [← hzs]
        exact h1.bounded z hzm
      exact ⟨h1, h2, h3, by omega, rfl⟩

/-- The expected reverse-callback trace from index i down to 0. -/
def revTraceList {T : Type} (upd : Nat → T → T) (x0 : T) : Nat → List (Nat × T)
  | 0 => [(0, iterUpd upd 0 x0)]
  | i + 1 => (i + 1, iterUpd upd (i + 1) x0) :: revTraceList upd x0 i

theorem revTraceList_eq {T : Type} (upd : Nat → T → T) (x0 : T) :
    ∀ i, revTraceList upd x0 i =
      (List.range (i + 1)).reverse.map (fun k => (k, iterUpd upd k x0)) := by
  intro i
  induction i with
  | zero => rfl
  | succ i ih =>
    rw [revTraceList, ih]
    conv_rhs => rw [List.range_succ, List.reverse_append]
    rfl

theorem revTraceList_length {T : Type} (upd : Nat → T → T) (x0 : T) (i : Nat) :
    (revTraceList upd x0 i).length = i + 1 := by
  rw [revTraceList_eq]
  simp

/-- One reverse-sweep iteration at index i from a state satisfying the
driver invariant at bound i: the trace gains exactly the entry
(i, forward state at i), and for i ≥ 1 the invariant descends to bound
i - 1 for the next iteration. -/
theorem revStep_spec {T : Type} (upd : Nat → T → T) (x0 dflt : T) {C : Nat} (hC : 1 ≤ C)
    (i : Nat) (hi : i < size_t_mod - 1) (st : DrvState T)
    (h1 : CpsInv C i st.cps) (h2 : savedOK upd x0 st.saved) (h3 : keysOK st.cps st.saved) :
    (revStep upd dflt i st).trace = st.trace ++ [(i, iterUpd upd i x0)]
    ∧ (1 ≤ i →
        CpsInv C (i - 1) (revStep upd dflt i st).cps
        ∧ savedOK upd x0 (revStep upd dflt i st).saved
        ∧ keysOK (revStep upd dflt i st).cps (revStep upd dflt i st).saved) := by
  obtain ⟨r1, r2, r3, r4, r5⟩ :=
    restore_spec upd x0 dflt hC i hi i st h1 h2 h3 (by omega)
  set st1 := restore upd dflt i i st with hst1
  have hne1 : st1.cps.slots ≠ [] := by
    intro hemp
    have := r1.zeroMem
    rw [hemp] at this
    cases this
  obtain ⟨z, hzm, hzs⟩ := last_mem hne1
  have hzi : z.step = i := by rw [hzs, r4]
  have hval : mapGetD i st1.saved dflt = iterUpd upd i x0 := by
    rw [← hzi]
    exact getD_of_keys r2 r3 hzm
  constructor
  · show st1.trace ++ [(i, mapGetD i st1.saved dflt)] = st.trace ++ [(i, iterUpd upd i x0)]
    rw [r5, hval]
  · intro hge1
    have hznp : z.persistent = false := by
      rcases hzp : z.persistent with _ | _
      · rfl
      · have := r1.pers0 z hzm hzp
        omega
    have hrem := eraseStepList_removes r1.sorted ⟨z, hzm, hzi, hznp⟩
    have hsub : (eraseStepList st1.cps.slots i).1.Sublist st1.cps.slots :=
      eraseStepList_sublist _ _
    refine ⟨⟨?_, ?_, ?_, ?_, ?_, ?_, ?_⟩, ?_, ?_⟩
    · exact List.Pairwise.sublist hsub r1.sorted
    · intro x hx
      have hxs := hsub.subset hx
      have := r1.bounded x hxs
      have hne := hrem.2 x hx
      omega
    · intro x hx
      exact r1.pers0 x (hsub.subset hx)
    · intro x hx
      exact r1.zeroPers x (hsub.subset hx)
    · rcases mem_eraseStepList_of_mem r1.zeroMem with hm | ⟨hs0, _⟩
      · exact hm
      · exfalso
        simp at hs0
        omega
    · exact r1.maxEq
    · exact le_trans hsub.length_le r1.lenLe
    · exact savedOK_erase r2 i
    · intro x hx
      have hne := hrem.2 x hx
      rcases r3 x (hsub.subset hx) with ⟨v, hv⟩
      refine ⟨v, ?_⟩
      show mapGet? x.step (mapErase i st1.saved) = some v
      rw [mapGet?_erase_ne hne]
      exact hv

/-- The reverse sweep from index i, started in a state satisfying the
driver invariant at bound i, appends exactly the expected callback trace
for indices i, i-1, ..., 0. -/
theorem revLoop_spec {T : Type} (upd : Nat → T → T) (x0 dflt : T) {C : Nat} (hC : 1 ≤ C) :
    ∀ (i : Nat) (st : DrvState T), i < size_t_mod - 1 →
      CpsInv C i st.cps → savedOK upd x0 st.saved → keysOK st.cps st.saved →
      (revLoop upd dflt i st).trace = st.trace ++ revTraceList upd x0 i := by
  intro i
  induction i with
  | zero =>
    intro st hi h1 h2 h3
    have : revLoop upd dflt 0 st = revStep upd dflt 0 st := rfl
    rw [this, (revStep_spec upd x0 dflt hC 0 hi st h1 h2 h3).1]
    rfl
  | succ i ih =>
    intro st hi h1 h2 h3
    obtain ⟨htr, hinv⟩ := revStep_spec upd x0 dflt hC (i + 1) hi st h1 h2 h3
    obtain ⟨k1, k2, k3⟩ := hinv (by omega)
    have hstep : revLoop upd dflt (i + 1) st = revLoop upd dflt i (revStep upd dflt (i + 1) st) :=
      rfl
    rw [hstep, ih (revStep upd dflt (i + 1) st) (by omega) k1 k2 k3, htr,
      List.append_assoc]
    rfl

theorem fwdAux_succ {T : Type} (upd : Nat → T → T) (dflt : T) (i r : Nat) (st : DrvState T) :
    fwdAux upd dflt i (r + 1) st =
      fwdAux upd dflt (i + 1) r
        { cps := (add_checkpoint_and_get_index_to_remove st.cps (i + 1) false).1,
          saved := mapSet (i + 1) (upd i (mapGetD i st.saved dflt))
              (if valid_checkpoint_index
                  (add_checkpoint_and_get_index_to_remove st.cps (i + 1) false).2 then
                mapErase (add_checkpoint_and_get_index_to_remove st.cps (i + 1) false).2 st.saved
              else st.saved),
          x := upd i (mapGetD i st.saved dflt),
          trace := st.trace } := rfl

/-- The forward sweep of r steps from index i, started in a state
satisfying the driver invariant at bound i with the last checkpoint at i
and the running state equal to the forward state at i, ends in a state
satisfying the invariant at bound i + r with the running state equal to
the forward state at i + r. -/
theorem fwd_spec {T : Type} (upd : Nat → T → T) (x0 dflt : T) {C : Nat} (hC : 1 ≤ C) :
    ∀ (r i : Nat) (st : DrvState T), i + r < size_t_mod - 1 →
      CpsInv C i st.cps → savedOK upd x0 st.saved → keysOK st.cps st.saved →
      last_checkpoint_step st.cps = i → st.x = iterUpd upd i x0 →
      CpsInv C (i + r) (fwdAux upd dflt i r st).cps
      ∧ savedOK upd x0 (fwdAux upd dflt i r st).saved
      ∧ keysOK (fwdAux upd dflt i r st).cps (fwdAux upd dflt i r st).saved
      ∧ last_checkpoint_step (fwdAux upd dflt i r st).cps = i + r
      ∧ (fwdAux upd dflt i r st).x = iterUpd upd (i + r) x0
      ∧ (fwdAux upd dflt i r st).trace = st.trace := by
  intro r
  induction r with
  | zero =>
    intro i st _ h1 h2 h3 h4 h5
    exact ⟨h1, h2, h3, h4, h5, rfl⟩
  | succ r ih =>
    intro i st hir h1 h2 h3 h4 h5
    rw [fwdAux_succ]
    have hl1 : i + 1 < size_t_mod - 1 := by omega
    obtain ⟨hx1, hinv', hlast', hsok', hkok'⟩ :=
      drv_body upd x0 dflt hC h1 h2 h3 h4 hl1
    obtain ⟨k1, k2, k3, k4, k5, k6⟩ :=
      ih (i + 1)
        { cps := (add_checkpoint_and_get_index_to_remove st.cps (i + 1) false).1,
          saved := mapSet (i + 1) (upd i (mapGetD i st.saved dflt))
              (if valid_checkpoint_index
                  (add_checkpoint_and_get_index_to_remove st.cps (i + 1) false).2 then
                mapErase (add_checkpoint_and_get_index_to_remove st.cps (i + 1) false).2 st.saved
              else st.saved),
          x := upd i (mapGetD i st.saved dflt),
          trace := st.trace }
        (by omega) hinv' hsok' hkok' hlast' (by exact hx1)
    have heq : i + 1 + r = i + (r + 1) := by omega
    rw [heq] at k1 k4 k5
    exact ⟨k1, k2, k3, k4, k5, k6⟩

/-- The driver's initial state: step 0 registered persistent with the
strategy, and the initial condition stored at key 0. -/
theorem init_state {T : Type} (upd : Nat → T → T) (x0 : T) (C : Nat)
    (hC : C + 1 < size_t_mod) :
    CpsInv C 0 (add_checkpoint_and_get_index_to_remove (mkOnlineR2 C) 0 true).1
    ∧ last_checkpoint_step (add_checkpoint_and_get_index_to_remove (mkOnlineR2 C) 0 true).1 = 0
    ∧ savedOK upd x0 (mapSet 0 x0 [])
    ∧ keysOK (add_checkpoint_and_get_index_to_remove (mkOnlineR2 C) 0 true).1
        (mapSet 0 x0 ([] : List (Nat × T))) := by
  obtain ⟨hmax, _, _, _, hbr⟩ := add_cases (mkOnlineR2 C) 0 true
  simp only [if_true] at hmax hbr
  have hM : ((mkOnlineR2 C).maxNumSlots + 1) % size_t_mod = C + 1 := by
    show (C + 1) % size_t_mod = C + 1
    exact Nat.mod_eq_of_lt hC
  have hpos : 0 < ((mkOnlineR2 C).maxNumSlots + 1) % size_t_mod := by
    rw [hM]; omega
  rcases hbr with ⟨_, hsl, _⟩ | ⟨hge, _, _, _⟩ | ⟨hge, _, _, _⟩
  · have hsl' : (add_checkpoint_and_get_index_to_remove (mkOnlineR2 C) 0 true).1.slots
        = [⟨0, true⟩] := hsl
    have hget : ∀ x ∈ (add_checkpoint_and_get_index_to_remove (mkOnlineR2 C) 0 true).1.slots,
        x = (⟨0, true⟩ : Slot) := by
      intro x hx
      rw [hsl'] at hx
      exact List.mem_singleton.mp hx
    refine ⟨⟨?_, ?_, ?_, ?_, ?_, ?_, ?_⟩, ?_, ?_, ?_⟩
    · rw [hsl']; simp
    · intro x hx; rw [hget x hx]
    · intro x hx _; rw [hget x hx]
    · intro x hx _; rw [hget x hx]
    · rw [hsl']; exact List.mem_singleton.mpr rfl
    · rw [hmax, hM]
    · rw [hsl']; simp
    · rw [last_checkpoint_step, hsl']; rfl
    · intro k v hv
      by_cases hk : k = 0
      · rw [hk, mapGet?_set_self] at hv
        cases hv
        rw [hk]
        rfl
      · rw [mapGet?_set_ne hk] at hv
        cases hv
    · intro x hx
      rw [hget x hx]
      exact ⟨x0, mapGet?_set_self _ _ _⟩
  · exfalso
    rw [show (mkOnlineR2 C).slots.length = 0 from rfl] at hge
    omega
  · exfalso
    rw [show (mkOnlineR2 C).slots.length = 0 from rfl] at hge
    omega

/-- Claim C1 counterexample: with N = 1 and C = 2, update x + 1 from 0,
the reverse callback is invoked twice, at indices 1 and then 0, not
exactly N = 1 times and not only at indices in [1, N]: the reverse loop
for (size_t i = numSteps; i + 1 > 0; --i) includes i = 0. -/
theorem claim_c1_counterexample :
    ((advance_and_reverse_steps 1 2 (0 : Nat) (fun _ x => x + 1) 0).2).map Prod.fst = [1, 0]
    ∧ ((advance_and_reverse_steps 1 2 (0 : Nat) (fun _ x => x + 1) 0).2).length = 2
    ∧ (0, 0) ∈ (advance_and_reverse_steps 1 2 (0 : Nat) (fun _ x => x + 1) 0).2 := by
  refine ⟨by decide, by decide, by decide⟩

/-- Claim C1 amended: for N ≥ 1 and C ≥ 1 (C the in-repo OnlineR2 strategy
capacity; size_t bounds on C and N), the reverse callback is invoked
exactly N + 1 times, with first arguments N, N-1, ..., 1, 0 in strictly
decreasing order — including index 0 — and on each invocation the second
argument equals the forward state at that index. -/
theorem claim_c1_amended {T : Type} (upd : Nat → T → T) (x0 dflt : T) (N C : Nat)
    (hN : 1 ≤ N) (hC : 1 ≤ C) (hCov : C + 1 < size_t_mod) (hNov : N < size_t_mod - 1) :
    (advance_and_reverse_steps N C x0 upd dflt).2
      = (List.range (N + 1)).reverse.map (fun k => (k, iterUpd upd k x0))
    ∧ (advance_and_reverse_steps N C x0 upd dflt).2.length = N + 1
    ∧ ((advance_and_reverse_steps N C x0 upd dflt).2).map Prod.fst
      = (List.range (N + 1)).reverse := by
  obtain ⟨i1, i2, i3, i4⟩ := init_state upd x0 C hCov
  have hadv : (advance_and_reverse_steps N C x0 upd dflt).2 =
      (revLoop upd dflt N
        (fwdAux upd dflt 0 N
          { cps := (add_checkpoint_and_get_index_to_remove (mkOnlineR2 C) 0 true).1,
            saved := mapSet 0 x0 [], x := x0, trace := [] })).trace := rfl
  obtain ⟨f1, f2, f3, f4, f5, f6⟩ :=
    fwd_spec upd x0 dflt hC N 0
      { cps := (add_checkpoint_and_get_index_to_remove (mkOnlineR2 C) 0 true).1,
        saved := mapSet 0 x0 [], x := x0, trace := [] }
      (by omega) i1 i3 i4 i2 rfl
  rw [Nat.zero_add] at f1
  have htr := revLoop_spec upd x0 dflt hC N
    (fwdAux upd dflt 0 N
      { cps := (add_checkpoint_and_get_index_to_remove (mkOnlineR2 C) 0 true).1,
        saved := mapSet 0 x0 [], x := x0, trace := [] })
    (by omega) f1 f2 f3
  rw [hadv, htr, f6]
  simp only [List.nil_append]
  rw [revTraceList_eq]
  refine ⟨rfl, by simp, ?_⟩
  rw [List.map_map]
  have : (Prod.fst ∘ fun k => ((k, iterUpd upd k x0) : Nat × T)) = id := rfl
  rw [this, List.map_id]

/-- Claim C1 amended, witness at N = 1, C = 1 with update x + 1 from 0. -/
theorem claim_c1_amended_witness :
    (advance_and_reverse_steps 1 1 (0 : Nat) (fun _ x => x + 1) 0).2
      = (List.range 2).reverse.map (fun k => (k, iterUpd (fun _ x => x + 1) k 0))
    ∧ (advance_and_reverse_steps 1 1 (0 : Nat) (fun _ x => x + 1) 0).2.length = 2 :=
  ⟨(claim_c1_amended (fun _ x => x + 1) 0 0 1 1 (le_refl 1) (le_refl 1)
      (by decide) (by decide)).1,
    (claim_c1_amended (fun _ x => x + 1) 0 0 1 1 (le_refl 1) (le_refl 1)
      (by decide) (by decide)).2.1⟩

/-- Claim C2: for C ≥ 2 (size_t bounds on C and N), the value returned by
advance_and_reverse_steps equals the forward state obtained by naive
forward iteration of the update function from the initial condition,
regardless of the evictions and recomputations performed during the
sweeps; the reverse sweep also completes, invoking the callback on every
index. -/
theorem claim_c2_return_value {T : Type} (upd : Nat → T → T) (x0 dflt : T) (N C : Nat)
    (hC : 2 ≤ C) (hCov : C + 1 < size_t_mod) (hNov : N < size_t_mod - 1) :
    (advance_and_reverse_steps N C x0 upd dflt).1 = iterUpd upd N x0
    ∧ (advance_and_reverse_steps N C x0 upd dflt).2.length = N + 1 := by
  have hC1 : 1 ≤ C := by omega
  obtain ⟨i1, i2, i3, i4⟩ := init_state upd x0 C hCov
  obtain ⟨f1, f2, f3, f4, f5, f6⟩ :=
    fwd_spec upd x0 dflt hC1 N 0
      { cps := (add_checkpoint_and_get_index_to_remove (mkOnlineR2 C) 0 true).1,
        saved := mapSet 0 x0 [], x := x0, trace := [] }
      (by omega) i1 i3 i4 i2 rfl
  rw [Nat.zero_add] at f1 f5
  constructor
  · show (fwdAux upd dflt 0 N
      { cps := (add_checkpoint_and_get_index_to_remove (mkOnlineR2 C) 0 true).1,
        saved := mapSet 0 x0 [], x := x0, trace := [] }).x = iterUpd upd N x0
    exact f5
  · have htr := revLoop_spec upd x0 dflt hC1 N
      (fwdAux upd dflt 0 N
        { cps := (add_checkpoint_and_get_index_to_remove (mkOnlineR2 C) 0 true).1,
          saved := mapSet 0 x0 [], x := x0, trace := [] })
      (by omega) f1 f2 f3
    show (revLoop upd dflt N
      (fwdAux upd dflt 0 N
        { cps := (add_checkpoint_and_get_index_to_remove (mkOnlineR2 C) 0 true).1,
          saved := mapSet 0 x0 [], x := x0, trace := [] })).trace.length = N + 1
    rw [htr, f6, List.nil_append, revTraceList_length]

/-- Claim C2, witness at N = 3, C = 2 with update x + 1 from 0: the
return value is 3, matching three naive forward iterations. -/
theorem claim_c2_witness :
    (advance_and_reverse_steps 3 2 (0 : Nat) (fun _ x => x + 1) 0).1
      = iterUpd (fun _ x => x + 1) 3 0
    ∧ (advance_and_reverse_steps 3 2 (0 : Nat) (fun _ x => x + 1) 0).2.length = 3 + 1 :=
  claim_c2_return_value (fun _ x => x + 1) 0 0 3 2 (le_refl 2) (by decide) (by decide)

end gretl
